import Mathlib

/-! TEWH patient monitor: the ECG read-out (`src/display/ecg.cpp`) and the
display driver (`src/sunfounder.c`)

A shallow embedding of `ECGReadout`: the circular sample fifo filled by
`read()`, the rendering loop of `display_signal()` and the peak scan of
`heart_rate()`; and of `write_data`, `setColor` and `fillRectangle` of the driver.

Conventions of the embedding.

* C `int` values are `Int`; all quantities stay far below the 16-bit range of
  the AVR target, so no wrap-around is modelled.
* C `%` and the conversion `double → int` truncate toward zero: `Int.tmod`
  and `Int.tdiv`.  A remainder by zero is undefined in C, while `Int.tmod x 0 = x`;
  no object has `width = 0`.
* `std::vector<int>` and `int*` buffers are `List Int`.  `operator[]` is
  unchecked in C++; an access outside the storage is undefined behaviour and
  is modelled by `none`.
* The constructor is `ECGReadout.ctor`: it leaves the member vectors empty and the
  member cursors unwritten.  Statements about the sample buffer carry their start
  state as hypotheses (a `fifo` of `width` slots, `fifo_next = width - 1`);
  `ECGReadout.initial` is the concrete state with those values.
* Calls on the display are collected in a list, in the order they are made.
* `uint16_t` values of the driver are `Int` in `[0, 65535]`; arithmetic on them is
  done in `int` and reduced modulo 65536 where the source stores it back.
-/

/-! ## Unchecked element access -/

/-- Element read `v[i]` with a C `int` index: `none` when `i` is outside the storage. -/
def vec_get (v : List Int) (i : Int) : Option Int :=
  if 0 ≤ i then v[i.toNat]? else none

/-- Element write `v[i] = x` with a C `int` index: `none` when `i` is outside the storage. -/
def vec_set (v : List Int) (i : Int) (x : Int) : Option (List Int) :=
  if 0 ≤ i ∧ i < (v.length : Int) then some (v.set i.toNat x) else none

/-! ## Real-valued expressions

The source evaluates two expressions in `double` and converts the result to
`int`.  The embedding computes them in integers (`adjusted_num`, `rate_of_gap`);
the two definitions below state the real-valued reading of the source, and
`adjusted_num_eq_double` and `rate_of_gap_eq_double` prove that the integer
formulas are its truncation. -/

/-- The local `double sampling_period = 0.033333` of `heart_rate` (ecg.cpp 134). -/
def sampling_period : ℚ := 33333 / 1000000

/-- Conversion of a `double` to `int`: the fractional part is discarded. -/
def double_to_int (x : ℚ) : Int :=
  if 0 ≤ x then ⌊x⌋ else ⌈x⌉

/-! ## The object state -/

/-- The data members of `ECGReadout` that `read`, `display_signal` and `heart_rate` use. -/
structure ECGReadout where
  coord_x : Int
  coord_y : Int
  len : Int
  width : Int
  buffer_contents : Int
  databuffer : List Int
  input_buffer : List Int
  fifo : List Int
  display_fifo : List Int
  fifo_next : Int
  fifo_end : Int
  disp_start : Int
  disp_end : Int
deriving DecidableEq

/-- The object the constructor `ECGReadout::ECGReadout` (ecg.cpp 30-45) leaves.  The
member initialisers set `coord_x`, `coord_y`, `len`, `width`; the body allocates the
arrays with `new int[width]` (contents not initialised: parameters) and sets
`buffer_contents = 0`.  Lines 35-40 declare locals named `fifo`, `display_fifo`,
`fifo_next`, `fifo_end`, `disp_start` and `disp_end`, which shadow the members: the
member vectors stay empty and the four member cursors are never written, so their
values are parameters. -/
def ECGReadout.ctor (coord_x coord_y width len : Int) (databuffer input_buffer : List Int)
    (fifo_next fifo_end disp_start disp_end : Int) : ECGReadout :=
  { coord_x := coord_x
    coord_y := coord_y
    len := len
    width := width
    buffer_contents := 0
    databuffer := databuffer
    input_buffer := input_buffer
    fifo := []
    display_fifo := []
    fifo_next := fifo_next
    fifo_end := fifo_end
    disp_start := disp_start
    disp_end := disp_end }

/-- The initial state the constructor body describes in its locals (ecg.cpp 35-42):
both vectors hold `width` zeros (`std::vector<int> fifo (width)`),
`fifo_next = width-1`, `fifo_end = width-2`, `disp_start = (fifo_next + 1) % width`,
`disp_end = (fifo_next - 1) % width`, `buffer_contents = 0`.  It is not the object
the constructor leaves (that is `ECGReadout.ctor`); it serves as a concrete
well-formed state on which the methods are evaluated. -/
def ECGReadout.initial (coord_x coord_y width len : Int) (databuffer input_buffer : List Int) :
    ECGReadout :=
  let fifo_next := width - 1
  { coord_x := coord_x
    coord_y := coord_y
    len := len
    width := width
    buffer_contents := 0
    databuffer := databuffer
    input_buffer := input_buffer
    fifo := List.replicate width.toNat 0
    display_fifo := List.replicate width.toNat 0
    fifo_next := fifo_next
    fifo_end := width - 2
    disp_start := Int.tmod (fifo_next + 1) width
    disp_end := Int.tmod (fifo_next - 1) width }

/-! ## `ECGReadout::read` (ecg.cpp 66-78) -/

/-- Occupancy update of `read` (ecg.cpp 67-69):
`if (buffer_contents < width - 1) buffer_contents++`. -/
def bump_contents (width buffer_contents : Int) : Int :=
  if buffer_contents < width - 1 then buffer_contents + 1 else buffer_contents

/-- Rescaling of `read` (ecg.cpp 70-72) followed by the conversion to `int` of the
store in line 74: `input_num * len / 1023`, truncated toward zero.  The source
computes the product and the quotient in `double`; for the magnitudes of a
10-bit reading and a pixel height both are exact enough that the truncated
value is the integer quotient. -/
def adjusted_num (len input_num : Int) : Int :=
  Int.tdiv (input_num * len) 1023

/-- Cursor update of `read` (ecg.cpp 76-77): `(x - 1) % width` with the truncating
remainder of C. -/
def step_back (width x : Int) : Int :=
  Int.tmod (x - 1) width

/-- One call of `ECGReadout::read()`; `analogRead` is the value returned by
`analogRead(pin)`.  The result is `none` when the store `fifo[fifo_next]` falls
outside the vector. -/
def ECGReadout.read (s : ECGReadout) (analogRead : Int) : Option ECGReadout :=
  let buffer_contents := bump_contents s.width s.buffer_contents
  match vec_set s.fifo s.fifo_next (adjusted_num s.len analogRead) with
  | none => none
  | some fifo =>
    some { s with
      buffer_contents := buffer_contents
      fifo := fifo
      fifo_end := step_back s.width s.fifo_end
      fifo_next := step_back s.width s.fifo_next }

/-- Successive calls of `read()`, one per reading of the list, oldest first. -/
def ECGReadout.reads (s : ECGReadout) : List Int → Option ECGReadout
  | [] => some s
  | r :: rs =>
    match s.read r with
    | none => none
    | some t => t.reads rs

/-! ## The snapshot of `ECGReadout::display_signal` (ecg.cpp 84-100) -/

/-- Start offset captured by `display_signal` (ecg.cpp 86): `(fifo_next + 1) % width`. -/
def ECGReadout.new_start (s : ECGReadout) : Int :=
  Int.tmod (s.fifo_next + 1) s.width

/-- Raw index of screen column `i` in the copied vector (ecg.cpp 99):
`(i + new_start) % width`. -/
def ECGReadout.new_k (s : ECGReadout) (i : Int) : Int :=
  Int.tmod (i + s.new_start) s.width

/-- The copy `new_display_data = fifo` (ecg.cpp 91) read in screen-column order
`0 .. disp_buffer_size - 1`, with `disp_buffer_size = buffer_contents` (line 88). -/
def ECGReadout.snapshot (s : ECGReadout) : List (Option Int) :=
  (List.range s.buffer_contents.toNat).map (fun (i : Nat) => vec_get s.fifo (s.new_k (Int.ofNat i)))

/-! ## `ECGReadout::heart_rate` (ecg.cpp 133-161) -/

/-- The `for` loop of `heart_rate` (ecg.cpp 140-158).  The first argument is the
number of iterations left before `i` reaches `width - 1`; the result is the
pair `(start, finish)` with which the loop is left, by exhaustion or by
`break`.  `none` is a read outside one of the two buffers. -/
def heart_rate_loop (display_fifo databuffer : List Int) :
    Nat → Nat → Int → Int → Int → Option (Int × Int)
  | 0, _, start, finish, _ => some (start, finish)
  | n + 1, i, start, finish, wait =>
    match display_fifo[i]? with
    | none => none
    | some d =>
      let peak : Bool := decide (d > 90 ∧ start = -1)
      let start := if peak then (i : Int) else start
      let wait := if peak then 0 else wait
      if wait < 4 then
        heart_rate_loop display_fifo databuffer n (i + 1) start finish (wait + 1)
      else
        match databuffer[i]? with
        | none => none
        | some b =>
          if b > 90 ∧ finish = -1 then some (start, (i : Int))
          else heart_rate_loop display_fifo databuffer n (i + 1) start finish wait

/-- The scan of `heart_rate` from its initial locals `wait = 10`, `start = -1`,
`finish = -1` over `i = 0 .. width - 2`. -/
def ECGReadout.heart_rate_scan (s : ECGReadout) : Option (Int × Int) :=
  heart_rate_loop s.display_fifo s.databuffer (s.width - 1).toNat 0 (-1) (-1) 10

/-- The value returned for a given `(start, finish)` (ecg.cpp 159-160):
`60 / ((finish - start) * sampling_period)` with `sampling_period = 0.033333`,
converted to `int`.  As `0.033333 = 33333 / 1000000` the quotient is
`60000000 / (33333 * (finish - start))`, truncated toward zero.  A zero gap is
a division by zero, whose result has no `int` value: `none`. -/
def rate_of_gap (start finish : Int) : Option Int :=
  if finish - start = 0 then none
  else some (Int.tdiv 60000000 (33333 * (finish - start)))

/-- One call of `ECGReadout::heart_rate()`. -/
def ECGReadout.heart_rate (s : ECGReadout) : Option Int :=
  match s.heart_rate_scan with
  | none => none
  | some (start, finish) => rate_of_gap start finish

/-! ## `ECGReadout::display_signal` (ecg.cpp 84-126) -/

/-- The two colours `display_signal` passes to the display. -/
inductive Color where
  | ILI9341_BLACK
  | ILI9341_WHITE
deriving DecidableEq

/-- A call made through `tft_interface`. -/
inductive DisplayCall where
  | drawPixel (x y : Int) (color : Color)
  | drawFastVLine (x y h : Int) (color : Color)
deriving DecidableEq

/-- Whether a call is a vertical run (`drawFastVLine`) of the given colour. -/
def DisplayCall.is_run (color : Color) : DisplayCall → Bool
  | .drawPixel _ _ _ => false
  | .drawFastVLine _ _ _ c => decide (c = color)

/-- The colour a call paints with. -/
def DisplayCall.color : DisplayCall → Color
  | .drawPixel _ _ c => c
  | .drawFastVLine _ _ _ c => c

/-- The screen column `x` a call paints in. -/
def DisplayCall.x : DisplayCall → Int
  | .drawPixel x _ _ => x
  | .drawFastVLine x _ _ _ => x

/-- Modelled from the spec: the display surface behind `tft_interface` is an
external collaborator (`draw_pixel(x, y, color)`, `draw_vertical_run(x, y, length,
color)`) whose code is not among the sources.  A pixel call paints `(x, y)`; a
vertical run paints the `h` pixels `(x, y) .. (x, y + h - 1)`, as `drawFastVLine`
of the Adafruit GFX interface does. -/
def DisplayCall.pixels : DisplayCall → List (Int × Int)
  | .drawPixel x y _ => [(x, y)]
  | .drawFastVLine x y h _ => (List.range h.toNat).map (fun (j : Nat) => (x, y + Int.ofNat j))

/-- What `display_signal` captures between `cli()` and `sei()` (ecg.cpp 86-91):
`new_start`, `new_end`, `disp_buffer_size` and the copy `new_display_data`. -/
def ECGReadout.capture (s : ECGReadout) : Int × Int × Int × List Int :=
  (s.new_start, s.fifo_end, s.buffer_contents, s.fifo)

/-- The samples read by one iteration of the `while` loop of `display_signal` for
screen column `i`: `display_fifo[k]`, `display_fifo[prev]`, `new_display_data[new_k]`
and `new_display_data[new_prev]`. -/
structure Iteration where
  i : Nat
  old_k : Int
  old_prev : Int
  new_k : Int
  new_prev : Int
deriving DecidableEq

/-- The erasing branch of the loop body (ecg.cpp 102-110) for the column at `x`, with
`y0 = coord_y + len`, `a = display_fifo[k]` and `b = display_fifo[prev]`;
`line_thresh` is 40. -/
def erase_calls (x y0 a b : Int) : List DisplayCall :=
  if a - b > 40 then [.drawFastVLine x (y0 - a) (a - b) .ILI9341_BLACK]
  else if b - a > 40 then [.drawFastVLine x (y0 - b) (b - a) .ILI9341_BLACK]
  else [.drawPixel x (y0 - a) .ILI9341_BLACK]

/-- The drawing branch of the loop body (ecg.cpp 112-118) for the column at `x`, with
`y0 = coord_y + len`, `a = new_display_data[new_k]` and
`b = new_display_data[new_prev]`: two independent `if`s and an unconditional
`drawPixel`. -/
def draw_calls (x y0 a b : Int) : List DisplayCall :=
  (if a - b > 40 then [.drawFastVLine x (y0 - a) (a - b) .ILI9341_WHITE] else [])
  ++ (if b - a > 40 then [.drawFastVLine x (y0 - b) (b - a) .ILI9341_WHITE] else [])
  ++ [.drawPixel x (y0 - a) .ILI9341_WHITE]

/-- The calls of one iteration, in the order the source makes them. -/
def ECGReadout.calls_of (s : ECGReadout) (it : Iteration) : List DisplayCall :=
  erase_calls (s.coord_x + it.i) (s.coord_y + s.len) it.old_k it.old_prev
  ++ draw_calls (s.coord_x + it.i) (s.coord_y + s.len) it.new_k it.new_prev

/-- The `while` loop of `display_signal` (ecg.cpp 96-121).  The first numeric
argument is the number of columns still below `disp_buffer_size`, the second is
`i`.  The loop condition reads the member `fifo_end`.  The result lists the
iterations performed; `none` is a read outside one of the two vectors. -/
def display_signal_loop (s : ECGReadout) (new_start disp_buffer_size : Int)
    (new_display_data : List Int) : Nat → Nat → Option (List Iteration)
  | 0, _ => some []
  | n + 1, i =>
    if Int.tmod ((i : Int) + new_start) s.width ≠ s.fifo_end ∧ (i : Int) < disp_buffer_size then
      match vec_get s.display_fifo (Int.tmod ((i : Int) + s.disp_start) s.width),
            vec_get s.display_fifo (Int.tmod ((i : Int) + s.disp_start + 1) s.width),
            vec_get new_display_data (Int.tmod ((i : Int) + new_start) s.width),
            vec_get new_display_data (Int.tmod ((i : Int) + new_start + 1) s.width) with
      | some a, some b, some c, some d =>
        match display_signal_loop s new_start disp_buffer_size new_display_data n (i + 1) with
        | none => none
        | some rest => some ({ i := i, old_k := a, old_prev := b, new_k := c, new_prev := d } :: rest)
      | _, _, _, _ => none
    else some []

/-- The iterations of the loop of one call of `display_signal`, from `i = 0`. -/
def ECGReadout.display_iterations (s : ECGReadout) : Option (List Iteration) :=
  display_signal_loop s s.capture.1 s.capture.2.2.1 s.capture.2.2.2
    s.capture.2.2.1.toNat 0

/-- One call of `ECGReadout::display_signal()`: the state it leaves (lines 123-125
store the captured copy, `new_start` and `new_end`) and the calls made on the
display, in order. -/
def ECGReadout.display_signal (s : ECGReadout) : Option (ECGReadout × List DisplayCall) :=
  match s.display_iterations with
  | none => none
  | some its =>
    some ({ s with
        display_fifo := s.capture.2.2.2
        disp_start := s.capture.1
        disp_end := s.capture.2.1 },
      its.flatMap s.calls_of)

/-- The states on which every read of `display_signal` is inside its vector: both
vectors have `width ≥ 1` elements and the two start offsets are not negative. -/
def ECGReadout.in_bounds (s : ECGReadout) : Prop :=
  1 ≤ s.width ∧ (s.fifo.length : Int) = s.width ∧ (s.display_fifo.length : Int) = s.width ∧
    0 ≤ s.disp_start ∧ 0 ≤ s.new_start

instance (s : ECGReadout) : Decidable s.in_bounds := by
  unfold ECGReadout.in_bounds
  infer_instance

/-! ## The display driver (`src/sunfounder.c`) -/

/-- Conversion of an `int` value to `uint16_t`. -/
def to_uint16 (v : Int) : Int :=
  v % 65536

/-- The word `write_data` stores in the transmit FIFO (sunfounder.c 319 and 327):
`data = data + 0x100`, computed in `int` and stored back in the `uint16_t` argument. -/
def write_data_word (data : Int) : Int :=
  to_uint16 (data + 0x100)

/-- One call of `write_data(data)` (sunfounder.c 314-343).  `txd` is the TXD bit of the
CS register read in line 322.  The result is the return code and the word written
to the FIFO register, if any. -/
def write_data (txd : Bool) (data : Int) : Int × Option Int :=
  if txd then (0, some (write_data_word data)) else (1, none)

/-- Bit 8 of a FIFO word, the data/command bit of the 9-bit transfer. -/
def dc_bit (word : Int) : Bool :=
  decide (word / 256 % 2 = 1)

/-- The arguments of the two calls of `write_data` made by `setColor(color)`
(sunfounder.c 408-412): `color >> 8` and `color`. -/
def setColor_args (color : Int) : List Int :=
  [color / 256, color]

/-- The words `setColor(color)` writes to the FIFO when the FIFO is never full. -/
def setColor (color : Int) : List Int :=
  (setColor_args color).map write_data_word

/-- One call of `fillRectangle(x, y, w, h, color)` (sunfounder.c 424-436) on `uint16_t`
arguments: the return code and, when `setAddressWindow` is called, its four
arguments `(x0, y0, x1, y1)` as received in its `uint16_t` parameters.  The sums
`x + w - 1` and `y + h - 1` are computed in `int`. -/
def fillRectangle (x y w h : Int) : Int × Option (Int × Int × Int × Int) :=
  if x ≥ 320 ∨ y ≥ 240 then (1, none)
  else
    let w := if x + w - 1 ≥ 320 then to_uint16 (320 - x) else w
    let h := if y + h - 1 ≥ 240 then to_uint16 (240 - y) else h
    (0, some (x, y, to_uint16 (x + w - 1), to_uint16 (y + h - 1)))

/-! ## Auxiliary notions used in the statements -/

/-- Whether the delta between two adjacent samples exceeds `line_thresh = 40`, in
either direction. -/
def exceeds (a b : Int) : Bool :=
  decide (a - b > 40 ∨ b - a > 40)

/-- The state reached from the initial state (width 4, frame height 1023, origin
`(0, 0)`) by `read()` with the readings 0 and 100, before any call of
`display_signal`. -/
def sample_state : ECGReadout :=
  { ECGReadout.initial 0 0 4 1023 [0, 0, 0, 0] [] with
    buffer_contents := 2
    fifo := [0, 0, 100, 0]
    fifo_next := 1
    fifo_end := 0 }

/-- The pixels painted in screen column `x` with the given colour by a list of calls. -/
def painted (color : Color) (x : Int) (calls : List DisplayCall) : List (Int × Int) :=
  (calls.filter (fun c => decide (c.x = x ∧ c.color = color))).flatMap DisplayCall.pixels

/-! ## Truncation of the real-valued expressions -/

theorem double_to_int_neg (x : ℚ) : double_to_int (-x) = -double_to_int x := by
  unfold double_to_int
  rcases lt_trichotomy x 0 with h | h | h
  · rw [if_pos (by linarith), if_neg (by linarith), Int.floor_neg]
  · subst h; simp
  · rw [if_neg (by linarith), if_pos (by linarith), Int.ceil_neg]

theorem double_to_int_div_pos (a b : Int) (ha : 0 ≤ a) (hb : 0 < b) :
    double_to_int ((a : ℚ) / (b : ℚ)) = Int.tdiv a b := by
  have hbq : (0 : ℚ) < (b : ℚ) := by exact_mod_cast hb
  have haq : (0 : ℚ) ≤ (a : ℚ) := by exact_mod_cast ha
  unfold double_to_int
  rw [if_pos (div_nonneg haq hbq.le), Int.tdiv_eq_ediv ha hb.le, Int.floor_eq_iff]
  constructor
  · rw [le_div_iff₀ hbq]
    exact_mod_cast Int.ediv_mul_le a hb.ne.symm
  · rw [div_lt_iff₀ hbq]
    exact_mod_cast Int.lt_ediv_add_one_mul_self a hb

/-- Truncating the quotient of two integers computed in the rationals is the
truncating integer division. -/
theorem double_to_int_div (a b : Int) :
    double_to_int ((a : ℚ) / (b : ℚ)) = Int.tdiv a b := by
  rcases lt_trichotomy b 0 with hb | hb | hb
  · rcases le_total 0 a with ha | ha
    · have h := double_to_int_div_pos a (-b) ha (by omega)
      have e : (a : ℚ) / (b : ℚ) = -((a : ℚ) / ((-b : Int) : ℚ)) := by
        push_cast; rw [div_neg, neg_neg]
      rw [e, double_to_int_neg, h, Int.tdiv_neg, neg_neg]
    · have h := double_to_int_div_pos (-a) (-b) (by omega) (by omega)
      have e : (a : ℚ) / (b : ℚ) = ((-a : Int) : ℚ) / ((-b : Int) : ℚ) := by
        push_cast; rw [neg_div_neg_eq]
      rw [e, h, Int.tdiv_neg, Int.neg_tdiv, neg_neg]
  · subst hb; simp [double_to_int]
  · rcases le_total 0 a with ha | ha
    · exact double_to_int_div_pos a b ha hb
    · have h := double_to_int_div_pos (-a) b (by omega) hb
      have e : (a : ℚ) / (b : ℚ) = -(((-a : Int) : ℚ) / (b : ℚ)) := by
        push_cast; rw [neg_div, neg_neg]
      rw [e, double_to_int_neg, h, Int.neg_tdiv, neg_neg]

/-- The stored sample is `input_num * len / 1023` of ecg.cpp 71-72, truncated. -/
theorem adjusted_num_eq_double (len input_num : Int) :
    adjusted_num len input_num
      = double_to_int ((input_num : ℚ) * (len : ℚ) / 1023) := by
  have h := double_to_int_div (input_num * len) 1023
  unfold adjusted_num
  rw [← h]
  push_cast
  rfl

/-- The returned rate is `60 / ((finish - start) * sampling_period)` of ecg.cpp 159,
truncated, whenever the gap is not zero. -/
theorem rate_of_gap_eq_double (start finish : Int) (h : finish - start ≠ 0) :
    rate_of_gap start finish
      = some (double_to_int (60 / (((finish - start : Int) : ℚ) * sampling_period))) := by
  have hd := double_to_int_div 60000000 (33333 * (finish - start))
  have hq : ((finish - start : Int) : ℚ) ≠ 0 := by exact_mod_cast h
  have e : (60 : ℚ) / (((finish - start : Int) : ℚ) * sampling_period)
      = ((60000000 : Int) : ℚ) / ((33333 * (finish - start) : Int) : ℚ) := by
    unfold sampling_period
    push_cast
    field_simp
    ring
  unfold rate_of_gap
  rw [if_neg h, e, hd]

/-! ## Facts about `read` -/

theorem step_back_eq (w x : Int) (hw : 2 ≤ w) (h0 : 0 ≤ x) (hx : x ≤ w) :
    step_back w x = x - 1 := by
  unfold step_back
  rcases eq_or_lt_of_le h0 with h | h
  · subst h
    have h1 : Int.tdiv (-1) w = 0 := by
      rw [Int.neg_tdiv, Int.tdiv_eq_zero_of_lt (by decide) (by omega)]; rfl
    have h2 : Int.tmod (-1) w = -1 := by rw [Int.tmod_def, h1]; simp
    simpa using h2
  · exact Int.tmod_eq_of_lt (by omega) (by omega)

theorem bump_contents_iterate (w b : Int) (n : Nat) (hb : b ≤ w - 1) :
    (bump_contents w)^[n] b = min (b + n) (w - 1) := by
  induction n generalizing b with
  | zero => simp [hb]
  | succ n ih =>
    rw [Function.iterate_succ_apply]
    by_cases h : b < w - 1
    · have hstep : bump_contents w b = b + 1 := by simp [bump_contents, h]
      rw [hstep, ih _ (by omega)]; push_cast; congr 1; ring
    · have hstep : bump_contents w b = b := by simp [bump_contents, h]
      rw [hstep, ih _ hb]
      have : b = w - 1 := by omega
      subst this
      rw [min_eq_right (by omega), min_eq_right (by push_cast; omega)]

theorem read_width (s t : ECGReadout) (r : Int) (h : s.read r = some t) :
    t.width = s.width ∧ t.len = s.len ∧ t.buffer_contents = bump_contents s.width s.buffer_contents := by
  unfold ECGReadout.read at h
  split at h
  · cases h
  · cases h; exact ⟨rfl, rfl, rfl⟩

theorem reads_contents (raws : List Int) (s t : ECGReadout) (h : s.reads raws = some t) :
    t.width = s.width ∧ t.len = s.len ∧
      t.buffer_contents = (bump_contents s.width)^[raws.length] s.buffer_contents := by
  induction raws generalizing s with
  | nil =>
    simp [ECGReadout.reads] at h
    subst h; simp
  | cons r rs ih =>
    unfold ECGReadout.reads at h
    split at h
    · cases h
    · rename_i u hu
      obtain ⟨h1, h2, h3⟩ := read_width s u r hu
      obtain ⟨k1, k2, k3⟩ := ih u h
      refine ⟨k1.trans h1, k2.trans h2, ?_⟩
      rw [k3, h1, h3, List.length_cons, Function.iterate_succ_apply]

theorem set_last_append (p t : List Int) (k : Nat) (x : Int) (hp : p.length = k + 1) :
    (p ++ t).set k x = p.take k ++ x :: t := by
  have hk : k < p.length := by omega
  have hd : p.drop (k + 1) = [] := List.drop_eq_nil_of_le (by omega)
  rw [List.set_append, if_pos hk, List.set_eq_take_append_cons_drop, if_pos hk, hd]
  simp

/-- A store at the cursor when the slots up to the cursor are the block `p`: the
last slot of `p` takes the sample and the cursor steps back. -/
theorem read_block (s : ECGReadout) (r : Int) (k : Nat) (p t : List Int)
    (hf : s.fifo = p ++ t) (hp : p.length = k + 1) (hn : s.fifo_next = k) :
    ∃ u, s.read r = some u ∧ u.fifo = p.take k ++ adjusted_num s.len r :: t ∧
      u.fifo_next = step_back s.width k := by
  have hset : vec_set s.fifo s.fifo_next (adjusted_num s.len r)
      = some (p.take k ++ adjusted_num s.len r :: t) := by
    unfold vec_set
    rw [if_pos, hn, hf, Int.toNat_ofNat, set_last_append p t k _ hp]
    rw [hn, hf]; simp; omega
  unfold ECGReadout.read
  rw [hset]
  exact ⟨_, rfl, rfl, by simp [hn]⟩

theorem reads_block (raws : List Int) (s : ECGReadout) (k : Nat) (p t : List Int)
    (hw : 2 ≤ s.width) (hk : (k : Int) ≤ s.width)
    (hf : s.fifo = p ++ t) (hp : p.length = k) (hn : s.fifo_next = (k : Int) - 1)
    (hl : raws.length ≤ k) :
    ∃ u, s.reads raws = some u ∧
      u.fifo = p.take (k - raws.length)
        ++ ((raws.map (adjusted_num s.len)).reverse ++ t) ∧
      u.fifo_next = (k : Int) - 1 - raws.length := by
  induction raws generalizing s k p t with
  | nil =>
    refine ⟨s, rfl, ?_, by simpa using hn⟩
    rw [hf]; simp [← hp]
  | cons r rs ih =>
    obtain ⟨j, rfl⟩ : ∃ j, k = j + 1 := ⟨k - 1, by simp at hl; omega⟩
    obtain ⟨u, hu, hfu, hnu⟩ := read_block s r j p t hf hp (by rw [hn]; push_cast; ring)
    obtain ⟨hwu, hlu, -⟩ := read_width s u r hu
    rw [step_back_eq s.width j hw (by omega) (by push_cast at hk; omega)] at hnu
    obtain ⟨v, hv, hfv, hnv⟩ := ih u j (p.take j) (adjusted_num s.len r :: t)
      (by rw [hwu]; exact hw) (by rw [hwu]; push_cast at hk; omega) hfu
      (by simp; omega) hnu (by simp at hl; omega)
    refine ⟨v, ?_, ?_, ?_⟩
    · simp only [ECGReadout.reads, hu, hv]
    · rw [hfv, hlu, List.take_take]
      have e : min (j - rs.length) j = j + 1 - (r :: rs).length := by simp
      rw [e]; simp
    · rw [hnv]; simp; ring

theorem map_range_getElem (l : List Int) (m : Nat) (hm : m ≤ l.length) :
    (List.range m).map (fun i => l[i]?) = (l.take m).map some := by
  apply List.ext_getElem?
  intro j
  by_cases hj : j < m
  · have hjl : j < l.length := by omega
    simp [List.getElem?_map, List.getElem?_range, List.getElem?_take, hj, hjl]
  · have hmj : m ≤ j := by omega
    simp [List.getElem?_map, List.getElem?_range, List.getElem?_take, hj, hmj]

/-- The snapshot of a state whose fifo is a block `q` of slots not yet written
followed by `l`, with the cursor just below `l`. -/
theorem snapshot_block (u : ECGReadout) (n : Nat) (q l : List Int)
    (hw : u.width = n) (hn : 2 ≤ n) (hl : l.length ≤ n)
    (hf : u.fifo = q ++ l) (hq : q.length = n - l.length)
    (hc : u.fifo_next = (n : Int) - 1 - l.length)
    (hb : u.buffer_contents = min (l.length : Int) ((n : Int) - 1)) :
    u.snapshot = (l.take (n - 1)).map some := by
  unfold ECGReadout.snapshot
  have hm : u.buffer_contents.toNat = min l.length (n - 1) := by
    rw [hb]; omega
  have htake : l.take (n - 1) = l.take (min l.length (n - 1)) := by
    rcases Nat.le_total l.length (n - 1) with h | h
    · rw [min_eq_left h, List.take_of_length_le h, List.take_of_length_le (le_refl _)]
    · rw [min_eq_right h]
  rw [hm, htake, ← map_range_getElem l _ (min_le_left _ _)]
  apply List.map_congr_left
  intro i hi
  have hi2 : i < min l.length (n - 1) := List.mem_range.mp hi
  have hi3 : i < l.length := lt_of_lt_of_le hi2 (min_le_left _ _)
  have hstart : u.new_start = (n : Int) - l.length := by
    unfold ECGReadout.new_start
    rw [hc, hw]
    exact (congrArg (fun x => Int.tmod x (n : Int)) (by ring)).trans
      (Int.tmod_eq_of_lt (by omega) (by omega))
  have hk : u.new_k (Int.ofNat i) = ((n - l.length + i : Nat) : Int) := by
    unfold ECGReadout.new_k
    rw [hstart, hw]
    have : Int.ofNat i + ((n : Int) - l.length) = ((n - l.length + i : Nat) : Int) := by
      simp; omega
    rw [this]
    exact Int.tmod_eq_of_lt (by omega) (by omega)
  rw [hk]
  unfold vec_get
  rw [if_pos (by omega), Int.toNat_ofNat, hf, List.getElem?_append_right (by omega), hq]
  simp

/-- Pushing at most `n` readings onto a state whose fifo has `n ≥ 2` slots and whose
cursor is at the last slot: every store is in bounds, the fifo holds the scaled
readings newest first behind the slots not yet written, and the cursor has moved
down by one per reading.  With `buffer_contents = 0` at the start the occupancy and
the snapshot follow. -/
theorem initial_reads (s : ECGReadout) (n : Nat) (hw : s.width = n) (hn : 2 ≤ n)
    (hf : s.fifo.length = n) (hc : s.fifo_next = (n : Int) - 1)
    (raws : List Int) (hl : raws.length ≤ n) :
    ∃ u, s.reads raws = some u ∧
      u.width = n ∧
      u.fifo = s.fifo.take (n - raws.length) ++ (raws.map (adjusted_num s.len)).reverse ∧
      u.fifo_next = (n : Int) - 1 - raws.length ∧
      (s.buffer_contents = 0 →
        u.buffer_contents = min (raws.length : Int) ((n : Int) - 1) ∧
        u.snapshot = (((raws.map (adjusted_num s.len)).reverse).take (n - 1)).map some) := by
  obtain ⟨u, hu, hfu, hcu⟩ := reads_block raws s n s.fifo []
    (by rw [hw]; omega) (by rw [hw]) (by simp) hf hc hl
  obtain ⟨hwu, -, hb⟩ := reads_contents raws s u hu
  have hw2 : u.width = n := by rw [hwu, hw]
  have hf2 : u.fifo
      = s.fifo.take (n - raws.length) ++ (raws.map (adjusted_num s.len)).reverse := by
    simpa using hfu
  refine ⟨u, hu, hw2, hf2, hcu, ?_⟩
  intro h0
  have hb2 : u.buffer_contents = min (raws.length : Int) ((n : Int) - 1) := by
    rw [hb, h0, hw]
    have := bump_contents_iterate (n : Int) 0 raws.length (by omega)
    simpa using this
  refine ⟨hb2, ?_⟩
  apply snapshot_block u n (s.fifo.take (n - raws.length)) _ hw2 hn (by simpa using hl)
  · exact hf2
  · simp [hf]
  · simpa using hcu
  · simpa using hb2

/-- On the object the constructor really leaves, whatever the unwritten cursors
hold, the vector `fifo` is empty and the first `read()` stores outside it. -/
theorem ctor_read_out_of_bounds (cx cy width len : Int) (db ib : List Int)
    (fifo_next fifo_end disp_start disp_end r : Int) :
    (ECGReadout.ctor cx cy width len db ib fifo_next fifo_end disp_start disp_end).read r
      = none := by
  have h : ¬ (0 ≤ fifo_next ∧ fifo_next < 0) := by omega
  simp [ECGReadout.read, ECGReadout.ctor, vec_set, h]

/-! ## Facts about the scan of `heart_rate` -/

/-- An iteration in which no first peak is taken and the wait counter has run out,
over a `databuffer` sample at or below the threshold, leaves the locals unchanged. -/
theorem loop_quiet_step (df db : List Int) (n i : Nat) (start wait d b : Int)
    (hd : df[i]? = some d) (hb : db[i]? = some b) (hq : d ≤ 90 ∨ start ≠ -1)
    (hb90 : b ≤ 90) (hwait : 4 ≤ wait) :
    heart_rate_loop df db (n + 1) i start (-1) wait
      = heart_rate_loop df db n (i + 1) start (-1) wait := by
  have hpeak : ¬ (d > 90 ∧ start = -1) := by
    rintro ⟨h1, h2⟩
    rcases hq with h | h
    · omega
    · exact h h2
  have hw : ¬ wait < 4 := by omega
  have hb2 : ¬ b > 90 := by omega
  simp [heart_rate_loop, hd, hb, hpeak, hw, hb2]

theorem loop_quiet (df db : List Int) (m n i : Nat) (start wait : Int) (hwait : 4 ≤ wait)
    (hq : ∀ j, j < m → ∃ d b, df[i + j]? = some d ∧ db[i + j]? = some b ∧
      (d ≤ 90 ∨ start ≠ -1) ∧ b ≤ 90) :
    heart_rate_loop df db (m + n) i start (-1) wait
      = heart_rate_loop df db n (i + m) start (-1) wait := by
  induction m generalizing i with
  | zero => simp
  | succ m ih =>
    obtain ⟨d, b, hd, hb, h1, h2⟩ := hq 0 (by omega)
    have e : m + 1 + n = (m + n) + 1 := by omega
    rw [e, loop_quiet_step df db (m + n) i start wait d b hd hb h1 h2 hwait, ih (i + 1)]
    · congr 1; omega
    · intro j hj
      obtain ⟨d, b, hd, hb, h1, h2⟩ := hq (j + 1) (by omega)
      exact ⟨d, b, by rw [← hd]; congr 1; omega, by rw [← hb]; congr 1; omega, h1, h2⟩

/-- The iteration that takes the first peak: `start = i`, `wait` restarts and is
counted to 1, and the `databuffer` is not looked at. -/
theorem loop_peak_step (df db : List Int) (n i : Nat) (wait d : Int)
    (hd : df[i]? = some d) (hd90 : 90 < d) :
    heart_rate_loop df db (n + 1) i (-1) (-1) wait
      = heart_rate_loop df db n (i + 1) i (-1) 1 := by
  simp [heart_rate_loop, hd, hd90]

/-- An iteration inside the wait after the first peak: only `wait` is counted up. -/
theorem loop_wait_step (df db : List Int) (n i : Nat) (start finish wait d : Int)
    (hd : df[i]? = some d) (hs : start ≠ -1) (hwait : wait < 4) :
    heart_rate_loop df db (n + 1) i start finish wait
      = heart_rate_loop df db n (i + 1) start finish (wait + 1) := by
  simp [heart_rate_loop, hd, hs, hwait]

/-- The iteration that takes the second peak and leaves the loop. -/
theorem loop_finish_step (df db : List Int) (n i : Nat) (start wait d b : Int)
    (hd : df[i]? = some d) (hb : db[i]? = some b) (hs : start ≠ -1)
    (hb90 : 90 < b) (hwait : 4 ≤ wait) :
    heart_rate_loop df db (n + 1) i start (-1) wait = some (start, (i : Int)) := by
  have hw : ¬ wait < 4 := by omega
  simp [heart_rate_loop, hd, hb, hs, hw, hb90]

/-- When the loop is left with both peaks found, the second is at least four
indices after the first.  The invariant carried through the loop is that, once
`start` is set, `start + wait ≤ i` and `wait ≤ 4`. -/
theorem loop_gap (df db : List Int) (n i : Nat) (start wait rs rf : Int)
    (h : heart_rate_loop df db n i start (-1) wait = some (rs, rf))
    (hinv : start = -1 ∨ (0 ≤ start ∧ start + wait ≤ i ∧ wait ≤ 4))
    (hs : rs ≠ -1) (hf : rf ≠ -1) : 4 ≤ rf - rs := by
  induction n generalizing i start wait with
  | zero =>
    simp [heart_rate_loop] at h
    exact absurd h.2.symm hf
  | succ n ih =>
    rw [heart_rate_loop] at h
    cases hd : df[i]? with
    | none => simp [hd] at h
    | some d =>
      simp only [hd] at h
      by_cases hp : d > 90 ∧ start = -1
      · simp only [hp, and_self, decide_True, if_true] at h
        exact ih (i + 1) i 1 (by simpa using h) (Or.inr ⟨by omega, by push_cast; omega, by omega⟩)
      · simp only [hp, decide_False, Bool.false_eq_true, if_false] at h
        by_cases hw : wait < 4
        · simp only [hw, if_true] at h
          refine ih (i + 1) start (wait + 1) h ?_
          rcases hinv with h1 | ⟨h1, h2, h3⟩
          · exact Or.inl h1
          · exact Or.inr ⟨h1, by push_cast; omega, by omega⟩
        · simp only [hw, if_false] at h
          cases hb : db[i]? with
          | none => simp [hb] at h
          | some b =>
            simp only [hb] at h
            by_cases hb90 : b > 90
            · simp only [hb90, and_self, if_true, Option.some.injEq, Prod.mk.injEq] at h
              obtain ⟨h1, h2⟩ := h
              subst h1 h2
              rcases hinv with h1 | ⟨h1, h2, h3⟩
              · exact absurd h1 hs
              · omega
            · simp only [hb90, false_and, if_false] at h
              refine ih (i + 1) start wait h ?_
              rcases hinv with h1 | ⟨h1, h2, h3⟩
              · exact Or.inl h1
              · exact Or.inr ⟨h1, by push_cast; omega, h3⟩

/-! ## The sample buffer: `read` and the snapshot -/

/-- C1 (the source breaks the invariant): from every state with `width ≥ 2` whose
`fifo` has `width` slots and whose write cursor is `fifo_next = width - 1`, the
initial state the constructor describes, the first `width` calls of `read()` all
store in bounds, and after them the write cursor `fifo_next` is `-1`, outside
`[0, width)`: the truncating `(0 - 1) % width` is `-1`, so the next store
`fifo[fifo_next]` is out of bounds. -/
theorem read_cursor_negative (s : ECGReadout) (raws : List Int)
    (hw : 2 ≤ s.width) (hf : (s.fifo.length : Int) = s.width)
    (hc : s.fifo_next = s.width - 1) (hl : (raws.length : Int) = s.width) :
    ∃ u, s.reads raws = some u ∧
      u.fifo_next = -1 ∧ ¬ (0 ≤ u.fifo_next ∧ u.fifo_next < s.width) ∧
      ∀ r, u.read r = none := by
  obtain ⟨n, hn⟩ := Int.eq_ofNat_of_zero_le (by omega : 0 ≤ s.width)
  have hrn : raws.length = n := by omega
  obtain ⟨u, hu, -, -, hcu, -⟩ := initial_reads s n hn (by omega) (by omega) (by omega)
    raws (by omega)
  have hneg : u.fifo_next = -1 := by rw [hcu, hrn]; ring
  refine ⟨u, hu, hneg, by omega, ?_⟩
  intro r
  simp [ECGReadout.read, vec_set, hneg]

theorem read_cursor_negative_witness :
    (2 : Int) ≤ (ECGReadout.initial 0 0 2 240 [] []).width ∧
    (((ECGReadout.initial 0 0 2 240 [] []).fifo.length : Nat) : Int)
      = (ECGReadout.initial 0 0 2 240 [] []).width ∧
    (ECGReadout.initial 0 0 2 240 [] []).fifo_next
      = (ECGReadout.initial 0 0 2 240 [] []).width - 1 ∧
    ((([7, 9] : List Int).length : Nat) : Int) = (ECGReadout.initial 0 0 2 240 [] []).width ∧
    ∃ u, (ECGReadout.initial 0 0 2 240 [] []).reads [7, 9] = some u ∧
      u.fifo_next = -1 ∧
      ¬ (0 ≤ u.fifo_next ∧ u.fifo_next < (ECGReadout.initial 0 0 2 240 [] []).width) ∧
      ∀ r, u.read r = none :=
  ⟨by decide, by decide, by decide, by decide,
    read_cursor_negative (ECGReadout.initial 0 0 2 240 [] []) [7, 9]
      (by decide) (by decide) (by decide) (by decide)⟩

/-- C2 (counterexample): from the initial state with width 3 (three slots, cursor
at the last one, occupancy 0) and frame height 1023 (readings are stored unscaled)
the two pushes 1, 2 fill the buffer to occupancy 2 = capacity - 1, and the snapshot
read from `new_start` is 2, 1, not the chronological 1, 2; and in the scenario of
the specification (capacity 50, pushes 0..59) the 51st store is outside the
vector, so no state with snapshot 11..59 is produced. -/
theorem snapshot_not_chronological :
    ((ECGReadout.initial 0 0 3 1023 [] []).reads [1, 2]).map
        (fun u => (u.buffer_contents, u.snapshot)) = some (2, [some 2, some 1]) ∧
    ((ECGReadout.initial 0 0 3 1023 [] []).reads [1, 2]).map
        (fun u => u.snapshot) ≠ some [some 1, some 2] ∧
    (ECGReadout.initial 0 0 50 1023 [] []).reads ((List.range 60).map Int.ofNat) = none := by
  decide

/-- C2 (amended): from every state with `width ≥ 2` whose `fifo` has `width` slots,
whose write cursor is `fifo_next = width - 1` and whose occupancy is 0, the initial
state the constructor describes, `N = width - 1` or `N = width` readings pushed by
`read()` all store in bounds, the occupancy is then `width - 1`, and the snapshot
read from `new_start` over the occupancy columns is exactly the most recent
`width - 1` stored samples, newest first. -/
theorem snapshot_full_newest_first (s : ECGReadout) (raws : List Int)
    (hw : 2 ≤ s.width) (hf : (s.fifo.length : Int) = s.width)
    (hc : s.fifo_next = s.width - 1) (h0 : s.buffer_contents = 0)
    (hl : (raws.length : Int) = s.width - 1 ∨ (raws.length : Int) = s.width) :
    ∃ u, s.reads raws = some u ∧
      u.buffer_contents = s.width - 1 ∧
      u.snapshot = (((raws.map (adjusted_num s.len)).drop
        (raws.length - (s.width - 1).toNat)).reverse).map some := by
  obtain ⟨n, hn⟩ := Int.eq_ofNat_of_zero_le (by omega : 0 ≤ s.width)
  obtain ⟨u, hu, -, -, -, hbs⟩ := initial_reads s n hn (by omega) (by omega) (by omega)
    raws (by omega)
  obtain ⟨hb, hs⟩ := hbs h0
  refine ⟨u, hu, by rw [hb]; omega, ?_⟩
  rw [hs, List.take_reverse]
  have : (s.width - 1).toNat = n - 1 := by omega
  rw [this, List.length_map]

theorem snapshot_full_newest_first_witness :
    (2 : Int) ≤ (ECGReadout.initial 0 0 4 1023 [] []).width ∧
    (((ECGReadout.initial 0 0 4 1023 [] []).fifo.length : Nat) : Int)
      = (ECGReadout.initial 0 0 4 1023 [] []).width ∧
    (ECGReadout.initial 0 0 4 1023 [] []).fifo_next
      = (ECGReadout.initial 0 0 4 1023 [] []).width - 1 ∧
    (ECGReadout.initial 0 0 4 1023 [] []).buffer_contents = 0 ∧
    ∃ u, (ECGReadout.initial 0 0 4 1023 [] []).reads [10, 20, 30, 40] = some u ∧
      u.buffer_contents = (ECGReadout.initial 0 0 4 1023 [] []).width - 1 ∧
      u.snapshot = ((([10, 20, 30, 40].map
          (adjusted_num (ECGReadout.initial 0 0 4 1023 [] []).len)).drop
        (([10, 20, 30, 40] : List Int).length
          - ((ECGReadout.initial 0 0 4 1023 [] []).width - 1).toNat)).reverse).map some :=
  ⟨by decide, by decide, by decide, by decide,
    snapshot_full_newest_first (ECGReadout.initial 0 0 4 1023 [] []) [10, 20, 30, 40]
      (by decide) (by decide) (by decide) (by decide) (by decide)⟩

/-- C3 (counterexample): from the initial state with width 4 (four slots, cursor at
the last one, occupancy 0) and frame height 1023 the two pushes 1, 2
(`N = 2 < capacity - 1`) give occupancy 2, but column 0 holds 2, the newest
sample, and column 1 holds 1: the columns are not in chronological order. -/
theorem columns_not_oldest_first :
    ((ECGReadout.initial 0 0 4 1023 [] []).reads [1, 2]).map
        (fun u => (u.buffer_contents, u.snapshot)) = some (2, [some 2, some 1]) ∧
    ((ECGReadout.initial 0 0 4 1023 [] []).reads [1, 2]).map
        (fun u => u.snapshot) ≠ some [some 1, some 2] := by
  decide

/-- C3 (amended): from every state whose `fifo` has `width` slots, whose write cursor
is `fifo_next = width - 1` and whose occupancy is 0, the initial state the
constructor describes, `N < width - 1` readings pushed by `read()` all store in
bounds, the occupancy is then `N`, and the columns `0 .. N-1` read through
`(i + new_start) % width` hold exactly the `N` stored samples in reverse
chronological order, column 0 being the newest sample. -/
theorem snapshot_partial_newest_first (s : ECGReadout) (raws : List Int)
    (hf : (s.fifo.length : Int) = s.width) (hc : s.fifo_next = s.width - 1)
    (h0 : s.buffer_contents = 0) (hl : (raws.length : Int) < s.width - 1) :
    ∃ u, s.reads raws = some u ∧
      u.buffer_contents = raws.length ∧
      u.snapshot = ((raws.map (adjusted_num s.len)).reverse).map some := by
  obtain ⟨n, hn⟩ := Int.eq_ofNat_of_zero_le (by omega : 0 ≤ s.width)
  obtain ⟨u, hu, -, -, -, hbs⟩ := initial_reads s n hn (by omega) (by omega) (by omega)
    raws (by omega)
  obtain ⟨hb, hs⟩ := hbs h0
  refine ⟨u, hu, by rw [hb]; omega, ?_⟩
  rw [hs, List.take_of_length_le (by simp; omega)]

theorem snapshot_partial_newest_first_witness :
    (((ECGReadout.initial 0 0 4 1023 [] []).fifo.length : Nat) : Int)
      = (ECGReadout.initial 0 0 4 1023 [] []).width ∧
    (ECGReadout.initial 0 0 4 1023 [] []).fifo_next
      = (ECGReadout.initial 0 0 4 1023 [] []).width - 1 ∧
    (ECGReadout.initial 0 0 4 1023 [] []).buffer_contents = 0 ∧
    (((([10, 20] : List Int).length : Nat) : Int)
      < (ECGReadout.initial 0 0 4 1023 [] []).width - 1) ∧
    ∃ u, (ECGReadout.initial 0 0 4 1023 [] []).reads [10, 20] = some u ∧
      u.buffer_contents = (([10, 20] : List Int).length : Nat) ∧
      u.snapshot = (([10, 20].map
        (adjusted_num (ECGReadout.initial 0 0 4 1023 [] []).len)).reverse).map some :=
  ⟨by decide, by decide, by decide, by decide,
    snapshot_partial_newest_first (ECGReadout.initial 0 0 4 1023 [] []) [10, 20]
      (by decide) (by decide) (by decide) (by decide)⟩

/-- C4: the occupancy update of `read()` iterated `n` times from `0` gives
`min n (width - 1)` for every `n` and every `width ≥ 1`; accordingly every state
reached by `n` calls of `read()` from a state with `buffer_contents = 0` has
`buffer_contents = min n (width - 1)`, which lies in `[0, width - 1]`, and one more
call never decreases it. -/
theorem read_occupancy (width : Int) (hw : 1 ≤ width) (n : Nat) :
    (bump_contents width)^[n] 0 = min (n : Int) (width - 1) ∧
    (∀ (s t : ECGReadout) (raws : List Int), s.width = width → s.buffer_contents = 0 →
      raws.length = n → s.reads raws = some t →
        t.buffer_contents = min (n : Int) (width - 1) ∧
        0 ≤ t.buffer_contents ∧ t.buffer_contents ≤ width - 1 ∧
        ∀ (r : Int) (u : ECGReadout), t.read r = some u →
          t.buffer_contents ≤ u.buffer_contents) := by
  have hit : (bump_contents width)^[n] 0 = min (n : Int) (width - 1) := by
    simpa using bump_contents_iterate width 0 n (by omega)
  refine ⟨hit, ?_⟩
  intro s t raws hsw hs0 hlen hrun
  obtain ⟨htw, -, htb⟩ := reads_contents raws s t hrun
  rw [hsw, hs0, hlen, hit] at htb
  refine ⟨htb, by rw [htb]; omega, by rw [htb]; omega, ?_⟩
  intro r u hu
  obtain ⟨-, -, hub⟩ := read_width t u r hu
  rw [hub]
  unfold bump_contents
  split <;> omega

theorem read_occupancy_witness :
    (1 : Int) ≤ 3 ∧
    (bump_contents 3)^[2] 0 = min ((2 : Nat) : Int) (3 - 1) ∧
    ∃ t, (ECGReadout.initial 0 0 3 1023 [] []).reads [5, 6] = some t ∧
      t.buffer_contents = min ((2 : Nat) : Int) (3 - 1) :=
  ⟨by decide, (read_occupancy 3 (by decide) 2).1,
    ⟨{ ECGReadout.initial 0 0 3 1023 [] [] with
        buffer_contents := 2, fifo := [0, 6, 5], fifo_next := 0, fifo_end := -1 },
      by decide,
      ((read_occupancy 3 (by decide) 2).2 (ECGReadout.initial 0 0 3 1023 [] []) _ [5, 6]
        rfl rfl rfl (by decide)).1⟩⟩

/-- C5 (counterexample): with frame height 100 the reading 2046 is stored as 200
and the reading -1023 as -100; neither is clamped into `[0, 100]`. -/
theorem read_does_not_clamp :
    ((ECGReadout.initial 0 0 10 100 [] []).read 2046).map (fun u => vec_get u.fifo 9)
      = some (some 200) ∧
    ((ECGReadout.initial 0 0 10 100 [] []).read (-1023)).map (fun u => vec_get u.fifo 9)
      = some (some (-100)) ∧
    ¬ ((200 : Int) ≤ 100) ∧ ¬ ((0 : Int) ≤ -100) := by
  decide

/-- C5 (amended): for every reading in the device range `0 ≤ raw ≤ 1023` and every
frame height `len ≥ 0`, a call of `read()` whose cursor is inside the vector
stores at the cursor a sample that lies in `[0, len]`. -/
theorem read_in_range_sample (s : ECGReadout) (raw : Int)
    (h0 : 0 ≤ raw) (h1 : raw ≤ 1023) (hlen : 0 ≤ s.len)
    (hc0 : 0 ≤ s.fifo_next) (hc1 : s.fifo_next < (s.fifo.length : Int)) :
    ∃ u v, s.read raw = some u ∧ vec_get u.fifo s.fifo_next = some v ∧
      v = adjusted_num s.len raw ∧ 0 ≤ v ∧ v ≤ s.len := by
  have hv0 : 0 ≤ adjusted_num s.len raw :=
    Int.tdiv_nonneg (Int.mul_nonneg h0 hlen) (by decide)
  have hv1 : adjusted_num s.len raw ≤ s.len := by
    unfold adjusted_num
    rw [Int.tdiv_eq_ediv (Int.mul_nonneg h0 hlen) (by decide)]
    have : raw * s.len ≤ s.len * 1023 := by nlinarith
    exact Int.ediv_le_of_le_mul (by decide) this
  have hset : vec_set s.fifo s.fifo_next (adjusted_num s.len raw)
      = some (s.fifo.set s.fifo_next.toNat (adjusted_num s.len raw)) := by
    simp [vec_set, hc0, hc1]
  have hlt : s.fifo_next.toNat < s.fifo.length := by omega
  refine ⟨{ s with
      buffer_contents := bump_contents s.width s.buffer_contents
      fifo := s.fifo.set s.fifo_next.toNat (adjusted_num s.len raw)
      fifo_end := step_back s.width s.fifo_end
      fifo_next := step_back s.width s.fifo_next },
    adjusted_num s.len raw, ?_, ?_, rfl, hv0, hv1⟩
  · simp only [ECGReadout.read, hset]
  · simp [vec_get, hc0, hlt]

theorem read_in_range_sample_witness :
    (0 : Int) ≤ 512 ∧ (512 : Int) ≤ 1023 ∧ 0 ≤ (ECGReadout.initial 0 0 10 100 [] []).len ∧
    0 ≤ (ECGReadout.initial 0 0 10 100 [] []).fifo_next ∧
    (ECGReadout.initial 0 0 10 100 [] []).fifo_next
      < ((ECGReadout.initial 0 0 10 100 [] []).fifo.length : Int) ∧
    ∃ u v, (ECGReadout.initial 0 0 10 100 [] []).read 512 = some u ∧
      vec_get u.fifo (ECGReadout.initial 0 0 10 100 [] []).fifo_next = some v ∧
      v = adjusted_num (ECGReadout.initial 0 0 10 100 [] []).len 512 ∧ 0 ≤ v ∧
      v ≤ (ECGReadout.initial 0 0 10 100 [] []).len :=
  ⟨by decide, by decide, by decide, by decide, by decide,
    read_in_range_sample (ECGReadout.initial 0 0 10 100 [] []) 512
      (by decide) (by decide) (by decide) (by decide) (by decide)⟩

/-! ## The rate estimate: `heart_rate` -/

/-- C6 (the source has no result for a flat signal): when every sample of
`display_fifo` and of `databuffer` is at or below the threshold 90, the loop of
`heart_rate()` is left with `start = finish = -1`, so the source evaluates
`60 / ((finish - start) * sampling_period)` with `finish - start = 0`: the division
by zero is performed and its result has no `int` value. -/
theorem heart_rate_flat_gap_zero (s : ECGReadout)
    (hlen : (s.display_fifo.length : Int) = s.width)
    (hlen2 : (s.databuffer.length : Int) = s.width)
    (hflat : ∀ d ∈ s.display_fifo, d ≤ 90) (hflat2 : ∀ b ∈ s.databuffer, b ≤ 90) :
    s.heart_rate_scan = some (-1, -1) ∧ s.heart_rate = none := by
  have hscan : s.heart_rate_scan = some (-1, -1) := by
    unfold ECGReadout.heart_rate_scan
    have h := loop_quiet s.display_fifo s.databuffer (s.width - 1).toNat 0 0 (-1) 10
      (by decide) (by
        intro j hj
        have h1 : 0 + j < s.display_fifo.length := by omega
        have h2 : 0 + j < s.databuffer.length := by omega
        refine ⟨s.display_fifo[0 + j], s.databuffer[0 + j], List.getElem?_eq_getElem h1,
          List.getElem?_eq_getElem h2, Or.inl (hflat _ (List.getElem_mem h1)),
          hflat2 _ (List.getElem_mem h2)⟩)
    rw [Nat.add_zero] at h
    rw [h]
    rfl
  refine ⟨hscan, ?_⟩
  unfold ECGReadout.heart_rate
  rw [hscan]
  rfl

theorem heart_rate_flat_gap_zero_witness :
    (((ECGReadout.initial 0 0 5 100 [0, 0, 0, 0, 0] []).display_fifo.length : Nat) : Int)
      = (ECGReadout.initial 0 0 5 100 [0, 0, 0, 0, 0] []).width ∧
    (((ECGReadout.initial 0 0 5 100 [0, 0, 0, 0, 0] []).databuffer.length : Nat) : Int)
      = (ECGReadout.initial 0 0 5 100 [0, 0, 0, 0, 0] []).width ∧
    (∀ d ∈ (ECGReadout.initial 0 0 5 100 [0, 0, 0, 0, 0] []).display_fifo, d ≤ 90) ∧
    (∀ b ∈ (ECGReadout.initial 0 0 5 100 [0, 0, 0, 0, 0] []).databuffer, b ≤ 90) ∧
    (ECGReadout.initial 0 0 5 100 [0, 0, 0, 0, 0] []).heart_rate_scan = some (-1, -1) ∧
    (ECGReadout.initial 0 0 5 100 [0, 0, 0, 0, 0] []).heart_rate = none :=
  ⟨by decide, by decide, by decide, by decide,
    heart_rate_flat_gap_zero (ECGReadout.initial 0 0 5 100 [0, 0, 0, 0, 0] [])
      (by decide) (by decide) (by decide) (by decide)⟩

/-- C7 (the source returns a negative rate): with width 10, a single sample 95 at
index 0 of `display_fifo` and a flat `databuffer`, the loop of `heart_rate()` is
left with `start = 0` and no `finish` (`finish = -1`), and the value returned is
the numeric rate `-1800`. -/
theorem heart_rate_single_peak_negative :
    ({ ECGReadout.initial 0 0 10 100 [0, 0, 0, 0, 0, 0, 0, 0, 0, 0] [] with
        display_fifo := [95, 0, 0, 0, 0, 0, 0, 0, 0, 0] } : ECGReadout).heart_rate_scan
      = some (0, -1) ∧
    ({ ECGReadout.initial 0 0 10 100 [0, 0, 0, 0, 0, 0, 0, 0, 0, 0] [] with
        display_fifo := [95, 0, 0, 0, 0, 0, 0, 0, 0, 0] } : ECGReadout).heart_rate
      = some (-1800) := by
  decide

/-- C8 (counterexample): with width 50 and the value 95 at indices 10 and 49 only
(two peaks `K = 39` apart) the loop stops at index 48, `finish` stays `-1` and
`-163` is returned; and in the scenario of the specification (peaks at 10 and 40) the value
returned is the integer 60, not the quotient `60 / (30 * sampling_period)`. -/
theorem heart_rate_last_index_not_scanned :
    ({ ECGReadout.initial 0 0 50 100
          ((List.range 50).map (fun i => if i = 10 ∨ i = 49 then 95 else 0)) [] with
        display_fifo := (List.range 50).map (fun i => if i = 10 ∨ i = 49 then 95 else 0) }
      : ECGReadout).heart_rate_scan = some (10, -1) ∧
    ({ ECGReadout.initial 0 0 50 100
          ((List.range 50).map (fun i => if i = 10 ∨ i = 49 then 95 else 0)) [] with
        display_fifo := (List.range 50).map (fun i => if i = 10 ∨ i = 49 then 95 else 0) }
      : ECGReadout).heart_rate = some (-163) ∧
    ({ ECGReadout.initial 0 0 50 100
          ((List.range 50).map (fun i => if i = 10 ∨ i = 40 then 95 else 0)) [] with
        display_fifo := (List.range 50).map (fun i => if i = 10 ∨ i = 40 then 95 else 0) }
      : ECGReadout).heart_rate = some 60 ∧
    ((60 : Int) : ℚ) ≠ 60 / (30 * sampling_period) := by
  refine ⟨by decide, by decide, by decide, ?_⟩
  unfold sampling_period
  norm_num

/-- C8 (amended): when the scanned data is the snapshot (`databuffer` holds the same
samples as `display_fifo`), its only samples above 90 are at two indices `p` and
`p + K` with `K > 4`, and both lie in the scanned range `0 .. width - 2`, the loop of
`heart_rate()` is left with `start = p` and `finish = p + K`, and the value
returned is `60 / (K * sampling_period)` truncated to an integer, that is
`60000000 / (33333 * K)`. -/
theorem heart_rate_two_peaks (s : ECGReadout) (p K : Nat)
    (hdb : s.databuffer = s.display_fifo)
    (hlen : (s.display_fifo.length : Int) = s.width)
    (hK : 4 < K) (hin : ((p + K : Nat) : Int) < s.width - 1)
    (hpk : ∀ i (h : i < s.display_fifo.length),
      90 < s.display_fifo[i] ↔ (i = p ∨ i = p + K)) :
    s.heart_rate_scan = some ((p : Int), ((p + K : Nat) : Int)) ∧
    s.heart_rate = some (double_to_int (60 / ((K : ℚ) * sampling_period))) ∧
    s.heart_rate = some (Int.tdiv 60000000 (33333 * (K : Int))) := by
  obtain ⟨k, rfl⟩ : ∃ k, K = k + 5 := ⟨K - 5, by omega⟩
  obtain ⟨r, hr⟩ : ∃ r, (s.width - 1).toNat = p + (k + r + 6) :=
    ⟨(s.width - 1).toNat - (p + k + 6), by omega⟩
  have hget : ∀ i, i < p + (k + 5) + 1 → ∃ d, s.display_fifo[i]? = some d ∧
      (90 < d ↔ (i = p ∨ i = p + (k + 5))) := by
    intro i hi
    have h1 : i < s.display_fifo.length := by omega
    exact ⟨s.display_fifo[i], List.getElem?_eq_getElem h1, hpk i h1⟩
  have hscan : s.heart_rate_scan = some ((p : Int), ((p + (k + 5) : Nat) : Int)) := by
    unfold ECGReadout.heart_rate_scan
    rw [hr, hdb]
    -- the samples before the first peak
    rw [loop_quiet s.display_fifo s.display_fifo p (k + r + 6) 0 (-1) 10 (by decide) (by
      intro j hj
      obtain ⟨d, hd, hd90⟩ := hget (0 + j) (by omega)
      have : d ≤ 90 := by
        by_contra hc
        have := hd90.mp (by omega)
        omega
      exact ⟨d, d, hd, hd, Or.inl this, this⟩)]
    -- the first peak
    obtain ⟨d0, hd0, h0⟩ := hget (0 + p) (by omega)
    have e1 : k + r + 6 = (k + r + 5) + 1 := by omega
    rw [e1, loop_peak_step s.display_fifo s.display_fifo (k + r + 5) (0 + p) 10 d0 hd0
      (h0.mpr (Or.inl (by omega)))]
    -- the three iterations of the wait
    have hp : (((0 + p : Nat) : Int)) ≠ -1 := by omega
    obtain ⟨d1, hd1, -⟩ := hget (0 + p + 1) (by omega)
    obtain ⟨d2, hd2, -⟩ := hget (0 + p + 1 + 1) (by omega)
    obtain ⟨d3, hd3, -⟩ := hget (0 + p + 1 + 1 + 1) (by omega)
    have e2 : k + r + 5 = (k + 1 + (r + 1) + 2) + 1 := by omega
    rw [e2, loop_wait_step s.display_fifo s.display_fifo _ (0 + p + 1) _ (-1) 1 d1 hd1 hp
      (by decide)]
    rw [loop_wait_step s.display_fifo s.display_fifo _ (0 + p + 1 + 1) _ (-1) (1 + 1) d2 hd2 hp
      (by decide)]
    rw [loop_wait_step s.display_fifo s.display_fifo _ (0 + p + 1 + 1 + 1) _ (-1) (1 + 1 + 1)
      d3 hd3 hp (by decide)]
    -- the samples between the end of the wait and the second peak
    rw [loop_quiet s.display_fifo s.display_fifo (k + 1) (r + 1) (0 + p + 1 + 1 + 1 + 1)
      ((0 + p : Nat) : Int) (1 + 1 + 1 + 1) (by decide) (by
      intro j hj
      obtain ⟨d, hd, hd90⟩ := hget (0 + p + 1 + 1 + 1 + 1 + j) (by omega)
      have : d ≤ 90 := by
        by_contra hc
        have := hd90.mp (by omega)
        omega
      exact ⟨d, d, hd, hd, Or.inr hp, this⟩)]
    -- the second peak
    obtain ⟨d5, hd5, h5⟩ := hget (0 + p + 1 + 1 + 1 + 1 + (k + 1)) (by omega)
    rw [loop_finish_step s.display_fifo s.display_fifo r _ _ (1 + 1 + 1 + 1) d5 d5 hd5 hd5 hp
      (h5.mpr (Or.inr (by omega))) (by decide)]
    congr 2
    · omega
    · omega
  have hgap : ((p + (k + 5) : Nat) : Int) - (p : Int) = ((k + 5 : Nat) : Int) := by
    push_cast; ring
  have hne : ((p + (k + 5) : Nat) : Int) - (p : Int) ≠ 0 := by rw [hgap]; omega
  have hrate : s.heart_rate
      = rate_of_gap (p : Int) ((p + (k + 5) : Nat) : Int) := by
    unfold ECGReadout.heart_rate
    rw [hscan]
  refine ⟨hscan, ?_, ?_⟩
  · rw [hrate, rate_of_gap_eq_double _ _ hne, hgap]
    rfl
  · rw [hrate]
    unfold rate_of_gap
    rw [if_neg hne, hgap]

theorem heart_rate_two_peaks_witness :
    ({ ECGReadout.initial 0 0 50 100
          ((List.range 50).map (fun i => if i = 10 ∨ i = 40 then 95 else 0)) [] with
        display_fifo := (List.range 50).map (fun i => if i = 10 ∨ i = 40 then 95 else 0) }
      : ECGReadout).heart_rate_scan = some (((10 : Nat) : Int), ((10 + 30 : Nat) : Int)) ∧
    ({ ECGReadout.initial 0 0 50 100
          ((List.range 50).map (fun i => if i = 10 ∨ i = 40 then 95 else 0)) [] with
        display_fifo := (List.range 50).map (fun i => if i = 10 ∨ i = 40 then 95 else 0) }
      : ECGReadout).heart_rate
      = some (double_to_int (60 / (((30 : Nat) : ℚ) * sampling_period))) ∧
    ({ ECGReadout.initial 0 0 50 100
          ((List.range 50).map (fun i => if i = 10 ∨ i = 40 then 95 else 0)) [] with
        display_fifo := (List.range 50).map (fun i => if i = 10 ∨ i = 40 then 95 else 0) }
      : ECGReadout).heart_rate = some (Int.tdiv 60000000 (33333 * ((30 : Nat) : Int))) :=
  heart_rate_two_peaks
    { ECGReadout.initial 0 0 50 100
          ((List.range 50).map (fun i => if i = 10 ∨ i = 40 then 95 else 0)) [] with
        display_fifo := (List.range 50).map (fun i => if i = 10 ∨ i = 40 then 95 else 0) }
    10 30 (by decide) (by decide) (by decide) (by decide) (by decide)

/-- C9 (the source scans two buffers): two states with the same `display_fifo`
(95 at indices 0 and 5) and the same width 10 that differ only in `databuffer`
get different results from `heart_rate()`: `-1800` when `databuffer` is flat,
`360` when it holds the same samples as `display_fifo`.  The second peak is
looked for in `databuffer`, not in the snapshot. -/
theorem heart_rate_reads_databuffer :
    ({ ECGReadout.initial 0 0 10 100 [0, 0, 0, 0, 0, 0, 0, 0, 0, 0] [] with
        display_fifo := [95, 0, 0, 0, 0, 95, 0, 0, 0, 0] } : ECGReadout).heart_rate
      = some (-1800) ∧
    ({ ECGReadout.initial 0 0 10 100 [95, 0, 0, 0, 0, 95, 0, 0, 0, 0] [] with
        display_fifo := [95, 0, 0, 0, 0, 95, 0, 0, 0, 0] } : ECGReadout).heart_rate
      = some 360 ∧
    ({ ECGReadout.initial 0 0 10 100 [0, 0, 0, 0, 0, 0, 0, 0, 0, 0] [] with
        display_fifo := [95, 0, 0, 0, 0, 95, 0, 0, 0, 0] } : ECGReadout).heart_rate
      ≠ ({ ECGReadout.initial 0 0 10 100 [95, 0, 0, 0, 0, 95, 0, 0, 0, 0] [] with
        display_fifo := [95, 0, 0, 0, 0, 95, 0, 0, 0, 0] } : ECGReadout).heart_rate := by
  decide

/-- C10 (counterexample): with width 10 and the value 95 at indices 0 and 4 of both
buffers, `start = 0` and `finish = 4`: the sample four indices after `start` is
selected as `finish`, and `finish - start = 4` is not greater than 4. -/
theorem heart_rate_finish_at_four :
    ({ ECGReadout.initial 0 0 10 100 [95, 0, 0, 0, 95, 0, 0, 0, 0, 0] [] with
        display_fifo := [95, 0, 0, 0, 95, 0, 0, 0, 0, 0] } : ECGReadout).heart_rate_scan
      = some (0, 4) ∧ ¬ ((4 : Int) - 0 > 4) := by
  decide

/-- C10 (amended): the iteration that finds `start` and the three that follow it only
count `wait` up to 4, so the samples at `start + 1 .. start + 3` are never compared
for `finish`; whenever the loop of `heart_rate()` is left with both `start` and
`finish` found, `finish - start ≥ 4`, for every content of the two buffers. -/
theorem heart_rate_wait_gap (s : ECGReadout) (start finish : Int)
    (h : s.heart_rate_scan = some (start, finish)) (hs : start ≠ -1) (hf : finish ≠ -1) :
    4 ≤ finish - start :=
  loop_gap s.display_fifo s.databuffer (s.width - 1).toNat 0 (-1) 10 start finish h
    (Or.inl rfl) hs hf

theorem heart_rate_wait_gap_witness :
    ({ ECGReadout.initial 0 0 10 100 [95, 0, 0, 0, 95, 0, 0, 0, 0, 0] [] with
        display_fifo := [95, 0, 0, 0, 95, 0, 0, 0, 0, 0] } : ECGReadout).heart_rate_scan
      = some (0, 4) ∧ (0 : Int) ≠ -1 ∧ (4 : Int) ≠ -1 ∧ (4 : Int) ≤ 4 - 0 :=
  ⟨by decide, by decide, by decide,
    heart_rate_wait_gap
      { ECGReadout.initial 0 0 10 100 [95, 0, 0, 0, 95, 0, 0, 0, 0, 0] [] with
        display_fifo := [95, 0, 0, 0, 95, 0, 0, 0, 0, 0] }
      0 4 (by decide) (by decide) (by decide)⟩

/-! ## Facts about the loop of `display_signal` -/

theorem vec_get_tmod (l : List Int) (w x : Int) (hw : 1 ≤ w) (hl : (l.length : Int) = w)
    (hx : 0 ≤ x) : ∃ v, vec_get l (Int.tmod x w) = some v := by
  have h0 : 0 ≤ Int.tmod x w := Int.tmod_nonneg w hx
  have h1 : Int.tmod x w < w := Int.tmod_lt_of_pos x (by omega)
  have h2 : (Int.tmod x w).toNat < l.length := by omega
  exact ⟨l[(Int.tmod x w).toNat], by simp [vec_get, h0, List.getElem?_eq_getElem h2]⟩

/-- With vectors of `width` elements and start offsets that are not negative, every
read of the loop is in bounds: the loop produces its list of iterations. -/
theorem display_signal_loop_defined (s : ECGReadout) (ns size : Int) (nd : List Int)
    (hw : 1 ≤ s.width) (hd : (s.display_fifo.length : Int) = s.width)
    (hn : (nd.length : Int) = s.width) (h0 : 0 ≤ s.disp_start) (h1 : 0 ≤ ns) (n i : Nat) :
    ∃ its, display_signal_loop s ns size nd n i = some its := by
  induction n generalizing i with
  | zero => exact ⟨[], rfl⟩
  | succ n ih =>
    obtain ⟨a, ha⟩ := vec_get_tmod s.display_fifo s.width ((i : Int) + s.disp_start) hw hd
      (by omega)
    obtain ⟨b, hb⟩ := vec_get_tmod s.display_fifo s.width ((i : Int) + s.disp_start + 1) hw hd
      (by omega)
    obtain ⟨c, hc⟩ := vec_get_tmod nd s.width ((i : Int) + ns) hw hn (by omega)
    obtain ⟨d, hd2⟩ := vec_get_tmod nd s.width ((i : Int) + ns + 1) hw hn (by omega)
    obtain ⟨rest, hrest⟩ := ih (i + 1)
    rw [display_signal_loop]
    split
    · rw [ha, hb, hc, hd2]
      simp only [hrest]
      exact ⟨_, rfl⟩
    · exact ⟨[], rfl⟩

/-- The iterations of the loop are the consecutive columns `i, i + 1, ..`; each was
entered with the loop condition true, and the loop stopped at the first column
where the condition is false or the columns below `disp_buffer_size` are used up. -/
theorem display_signal_loop_columns (s : ECGReadout) (ns size : Int) (nd : List Int)
    (n i : Nat) (its : List Iteration)
    (h : display_signal_loop s ns size nd n i = some its) :
    its.map (fun it => it.i) = List.range' i its.length ∧ its.length ≤ n ∧
    (∀ j, j < its.length →
      Int.tmod (((i + j : Nat) : Int) + ns) s.width ≠ s.fifo_end ∧ ((i + j : Nat) : Int) < size) ∧
    (its.length = n ∨
      ¬ (Int.tmod (((i + its.length : Nat) : Int) + ns) s.width ≠ s.fifo_end ∧
        ((i + its.length : Nat) : Int) < size)) := by
  induction n generalizing i its with
  | zero =>
    simp [display_signal_loop] at h
    subst h
    simp
  | succ n ih =>
    rw [display_signal_loop] at h
    split at h
    · rename_i hcond
      split at h
      · rename_i a b c d ha hb hc hd
        cases hrest : display_signal_loop s ns size nd n (i + 1) with
        | none => simp [hrest] at h
        | some rest =>
          simp only [hrest, Option.some.injEq] at h
          subst h
          obtain ⟨e1, e2, e3, e4⟩ := ih (i + 1) rest hrest
          refine ⟨?_, ?_, ?_, ?_⟩
          · simp [List.range', e1]
          · simp; omega
          · intro j hj
            cases j with
            | zero => simpa using hcond
            | succ j =>
              have := e3 j (by simp at hj; omega)
              have e : i + (j + 1) = i + 1 + j := by omega
              rw [e]; exact this
          · have e : i + (rest.length + 1) = i + 1 + rest.length := by omega
            rcases e4 with e4 | e4
            · left; simp [e4]
            · right; simp only [List.length_cons]; rw [e]; exact e4
      · cases h
    · rename_i hcond
      simp at h
      subst h
      refine ⟨by simp, by simp, by simp, Or.inr ?_⟩
      simpa using hcond

/-- The samples recorded in an iteration are the four reads of the loop body at its
column. -/
theorem display_signal_loop_samples (s : ECGReadout) (ns size : Int) (nd : List Int)
    (n i : Nat) (its : List Iteration)
    (h : display_signal_loop s ns size nd n i = some its) :
    ∀ it ∈ its,
      vec_get s.display_fifo (Int.tmod ((it.i : Int) + s.disp_start) s.width) = some it.old_k ∧
      vec_get s.display_fifo (Int.tmod ((it.i : Int) + s.disp_start + 1) s.width)
        = some it.old_prev ∧
      vec_get nd (Int.tmod ((it.i : Int) + ns) s.width) = some it.new_k ∧
      vec_get nd (Int.tmod ((it.i : Int) + ns + 1) s.width) = some it.new_prev := by
  induction n generalizing i its with
  | zero =>
    simp [display_signal_loop] at h
    subst h
    simp
  | succ n ih =>
    rw [display_signal_loop] at h
    split at h
    · split at h
      · rename_i a b c d ha hb hc hd
        cases hrest : display_signal_loop s ns size nd n (i + 1) with
        | none => simp [hrest] at h
        | some rest =>
          simp only [hrest, Option.some.injEq] at h
          subst h
          intro it hit
          rcases List.mem_cons.mp hit with rfl | hit
          · exact ⟨ha, hb, hc, hd⟩
          · exact ih (i + 1) rest hrest it hit
      · cases h
    · simp at h
      subst h
      simp

theorem display_iterations_defined (s : ECGReadout) (h : s.in_bounds) :
    ∃ its, s.display_iterations = some its := by
  obtain ⟨hw, hf, hd, h0, h1⟩ := h
  exact display_signal_loop_defined s _ _ _ hw hd hf h0 h1 _ _

/-- What a call of `display_signal` leaves: only the three members of the retained
snapshot are assigned. -/
theorem display_signal_result (s t : ECGReadout) (calls : List DisplayCall)
    (h : s.display_signal = some (t, calls)) :
    t = { s with display_fifo := s.fifo, disp_start := s.new_start, disp_end := s.fifo_end } ∧
    ∃ its, s.display_iterations = some its ∧ calls = its.flatMap s.calls_of := by
  unfold ECGReadout.display_signal at h
  cases hits : s.display_iterations with
  | none => simp [hits] at h
  | some its =>
    simp only [hits, Option.some.injEq, Prod.mk.injEq] at h
    exact ⟨h.1.symm, its, rfl, h.2.symm⟩

theorem display_signal_defined (s : ECGReadout) (h : s.in_bounds) :
    ∃ t calls, s.display_signal = some (t, calls) := by
  obtain ⟨its, hits⟩ := display_iterations_defined s h
  unfold ECGReadout.display_signal
  rw [hits]
  exact ⟨_, _, rfl⟩

theorem display_signal_in_bounds (s t : ECGReadout) (calls : List DisplayCall)
    (hs : s.in_bounds) (h : s.display_signal = some (t, calls)) : t.in_bounds := by
  obtain ⟨ht, -⟩ := display_signal_result s t calls h
  obtain ⟨hw, hf, hd, h0, h1⟩ := hs
  subst ht
  exact ⟨hw, hf, hf, h1, h1⟩

theorem sample_state_reached :
    (ECGReadout.initial 0 0 4 1023 [0, 0, 0, 0] []).reads [0, 100] = some sample_state := by
  decide

theorem erase_calls_shape (x y0 a b : Int) :
    (erase_calls x y0 a b).length = 1 ∧
    (∀ c ∈ erase_calls x y0 a b, c.color = Color.ILI9341_BLACK ∧ c.x = x) ∧
    (erase_calls x y0 a b).countP (DisplayCall.is_run Color.ILI9341_BLACK)
      = (if exceeds a b then 1 else 0) ∧
    (erase_calls x y0 a b).countP (DisplayCall.is_run Color.ILI9341_WHITE) = 0 := by
  unfold erase_calls exceeds
  by_cases h1 : a - b > 40
  · simp [h1, DisplayCall.is_run, DisplayCall.color, DisplayCall.x]
  · by_cases h2 : b - a > 40
    · simp [h1, h2, DisplayCall.is_run, DisplayCall.color, DisplayCall.x]
    · simp [h1, h2, DisplayCall.is_run, DisplayCall.color, DisplayCall.x]

theorem draw_calls_shape (x y0 a b : Int) :
    (draw_calls x y0 a b).length = (if exceeds a b then 2 else 1) ∧
    (∀ c ∈ draw_calls x y0 a b, c.color = Color.ILI9341_WHITE ∧ c.x = x) ∧
    (draw_calls x y0 a b).countP (DisplayCall.is_run Color.ILI9341_WHITE)
      = (if exceeds a b then 1 else 0) ∧
    (draw_calls x y0 a b).countP (DisplayCall.is_run Color.ILI9341_BLACK) = 0 ∧
    (draw_calls x y0 a b).getLast? = some (.drawPixel x (y0 - a) .ILI9341_WHITE) := by
  unfold draw_calls exceeds
  by_cases h1 : a - b > 40
  · have h2 : ¬ b - a > 40 := by omega
    simp [h1, h2, DisplayCall.is_run, DisplayCall.color, DisplayCall.x]
  · by_cases h2 : b - a > 40
    · simp [h1, h2, DisplayCall.is_run, DisplayCall.color, DisplayCall.x]
    · simp [h1, h2, DisplayCall.is_run, DisplayCall.color, DisplayCall.x]

theorem countP_runs_black (s : ECGReadout) (its : List Iteration) :
    (its.flatMap s.calls_of).countP (DisplayCall.is_run Color.ILI9341_BLACK)
      = its.countP (fun it => exceeds it.old_k it.old_prev) := by
  induction its with
  | nil => rfl
  | cons it its ih =>
    have e := (erase_calls_shape (s.coord_x + it.i) (s.coord_y + s.len) it.old_k it.old_prev).2.2.1
    have d := (draw_calls_shape (s.coord_x + it.i) (s.coord_y + s.len) it.new_k it.new_prev).2.2.2.1
    rw [List.flatMap_cons, List.countP_append, ih, ECGReadout.calls_of, List.countP_append, e, d,
      List.countP_cons]
    split
    · simp_all; omega
    · simp_all

theorem countP_runs_white (s : ECGReadout) (its : List Iteration) :
    (its.flatMap s.calls_of).countP (DisplayCall.is_run Color.ILI9341_WHITE)
      = its.countP (fun it => exceeds it.new_k it.new_prev) := by
  induction its with
  | nil => rfl
  | cons it its ih =>
    have e := (erase_calls_shape (s.coord_x + it.i) (s.coord_y + s.len) it.old_k it.old_prev).2.2.2
    have d := (draw_calls_shape (s.coord_x + it.i) (s.coord_y + s.len) it.new_k it.new_prev).2.2.1
    rw [List.flatMap_cons, List.countP_append, ih, ECGReadout.calls_of, List.countP_append, e, d,
      List.countP_cons]
    split
    · simp_all; omega
    · simp_all

theorem calls_of_x (s : ECGReadout) (it : Iteration) :
    (∀ c ∈ s.calls_of it, c.x = s.coord_x + it.i) ∧
    ∃ c ∈ s.calls_of it, c.x = s.coord_x + it.i := by
  have e := erase_calls_shape (s.coord_x + it.i) (s.coord_y + s.len) it.old_k it.old_prev
  have d := draw_calls_shape (s.coord_x + it.i) (s.coord_y + s.len) it.new_k it.new_prev
  constructor
  · intro c hc
    rcases List.mem_append.mp hc with hc | hc
    · exact (e.2.1 c hc).2
    · exact (d.2.1 c hc).2
  · refine ⟨.drawPixel (s.coord_x + it.i) (s.coord_y + s.len - it.new_k) .ILI9341_WHITE, ?_, rfl⟩
    exact List.mem_append.mpr (Or.inr (List.mem_of_getLast?_eq_some d.2.2.2.2))

/-! ## Rendering: `display_signal` -/

/-- C11: a call of `display_signal()` leaves `fifo`, `fifo_next`, `fifo_end` and
`buffer_contents` as they were, so what a second call captures (copied contents,
start offset, end marker, occupancy) equals what the first call captured, and the
snapshot the second call retains equals the one retained by the first; on every
state whose vectors have `width` elements and whose offsets are not negative both
calls are defined. -/
theorem display_signal_keeps_buffer (s : ECGReadout) :
    (s.in_bounds → ∃ t calls t2 calls2,
      s.display_signal = some (t, calls) ∧ t.display_signal = some (t2, calls2)) ∧
    (∀ t calls, s.display_signal = some (t, calls) →
      t.fifo = s.fifo ∧ t.fifo_next = s.fifo_next ∧ t.fifo_end = s.fifo_end ∧
      t.buffer_contents = s.buffer_contents ∧ t.capture = s.capture ∧
      ∀ t2 calls2, t.display_signal = some (t2, calls2) →
        t2.display_fifo = t.display_fifo ∧ t2.disp_start = t.disp_start ∧
        t2.disp_end = t.disp_end ∧ t2.buffer_contents = t.buffer_contents) := by
  constructor
  · intro hs
    obtain ⟨t, calls, h1⟩ := display_signal_defined s hs
    obtain ⟨t2, calls2, h2⟩ := display_signal_defined t (display_signal_in_bounds s t calls hs h1)
    exact ⟨t, calls, t2, calls2, h1, h2⟩
  · intro t calls h
    obtain ⟨ht, -⟩ := display_signal_result s t calls h
    subst ht
    refine ⟨rfl, rfl, rfl, rfl, rfl, ?_⟩
    intro t2 calls2 h2
    obtain ⟨ht2, -⟩ := display_signal_result _ t2 calls2 h2
    subst ht2
    exact ⟨rfl, rfl, rfl, rfl⟩

theorem display_signal_keeps_buffer_witness :
    sample_state.in_bounds ∧
    ∃ t calls t2 calls2,
      sample_state.display_signal = some (t, calls) ∧ t.display_signal = some (t2, calls2) :=
  ⟨by decide, (display_signal_keeps_buffer sample_state).1 (by decide)⟩

/-- C14: when the captured occupancy `buffer_contents` is 0 the loop of
`display_signal()` is not entered: the call is defined and makes no call on the
display, neither `drawPixel` nor `drawFastVLine`. -/
theorem display_signal_empty (s : ECGReadout) (h : s.buffer_contents = 0) :
    ∃ t, s.display_signal = some (t, []) := by
  have hits : s.display_iterations = some [] := by
    unfold ECGReadout.display_iterations ECGReadout.capture
    simp only [h]
    rfl
  unfold ECGReadout.display_signal
  rw [hits]
  exact ⟨_, rfl⟩

theorem display_signal_empty_witness :
    (ECGReadout.initial 20 30 50 100 [] []).buffer_contents = 0 ∧
    ∃ t, (ECGReadout.initial 20 30 50 100 [] []).display_signal = some (t, []) :=
  ⟨rfl, display_signal_empty (ECGReadout.initial 20 30 50 100 [] []) rfl⟩

/-- C15: after every call of `display_signal()` the retained snapshot is the one the
call captured: `display_fifo` is the copied `fifo`, `disp_start` is `new_start` and
`disp_end` is the captured `fifo_end`, whatever the number of columns rendered;
and the call is defined on every state whose vectors have `width` elements and
whose offsets are not negative. -/
theorem display_signal_retains_capture (s : ECGReadout) :
    (s.in_bounds → ∃ t calls, s.display_signal = some (t, calls)) ∧
    (∀ t calls, s.display_signal = some (t, calls) →
      t.display_fifo = s.fifo ∧ t.disp_start = s.new_start ∧ t.disp_end = s.fifo_end ∧
      (t.display_fifo, t.disp_start, t.disp_end)
        = (s.capture.2.2.2, s.capture.1, s.capture.2.1)) := by
  refine ⟨display_signal_defined s, ?_⟩
  intro t calls h
  obtain ⟨ht, -⟩ := display_signal_result s t calls h
  subst ht
  exact ⟨rfl, rfl, rfl, rfl⟩

theorem display_signal_retains_capture_witness :
    sample_state.in_bounds ∧
    ∃ t calls, sample_state.display_signal = some (t, calls) :=
  ⟨by decide, (display_signal_retains_capture sample_state).1 (by decide)⟩

/-- C12 (counterexample): rendering the state reached by the readings 0 and 100
(width 4, previous snapshot all zero) makes five calls; column 0, whose adjacent
samples 100 and 0 differ by more than 40, gets two draw operations, a white
vertical run and a white pixel, not exactly one. -/
theorem draw_pass_two_calls :
    sample_state.display_signal.map (fun p => p.2)
      = some [.drawPixel 0 1023 .ILI9341_BLACK,
          .drawFastVLine 0 923 100 .ILI9341_WHITE, .drawPixel 0 923 .ILI9341_WHITE,
          .drawPixel 1 1023 .ILI9341_BLACK, .drawPixel 1 1023 .ILI9341_WHITE] ∧
    sample_state.display_signal.map (fun p =>
        (p.2.filter (fun c => decide (c.x = 0 ∧ c.color = Color.ILI9341_WHITE))).length)
      = some 2 := by
  decide

/-- C12 (amended): the calls of one `display_signal()` are, column by column for the
columns the loop processes, exactly one erase operation (a black pixel or a black
vertical run) followed by the draw operations: one white vertical run exactly when
the adjacent samples of the current snapshot differ by more than 40, then always
one white pixel.  The number of black runs is the number of processed columns
whose adjacent samples differ by more than 40 in the previous snapshot, the number
of white runs the same for the current snapshot. -/
theorem display_signal_calls_per_column (s t : ECGReadout) (calls : List DisplayCall)
    (h : s.display_signal = some (t, calls)) :
    ∃ its, s.display_iterations = some its ∧ calls = its.flatMap s.calls_of ∧
      (∀ it ∈ its,
        vec_get s.display_fifo (Int.tmod ((it.i : Int) + s.disp_start) s.width)
          = some it.old_k ∧
        vec_get s.display_fifo (Int.tmod ((it.i : Int) + s.disp_start + 1) s.width)
          = some it.old_prev ∧
        vec_get s.fifo (s.new_k it.i) = some it.new_k ∧
        vec_get s.fifo (Int.tmod ((it.i : Int) + s.new_start + 1) s.width) = some it.new_prev ∧
        s.calls_of it
          = erase_calls (s.coord_x + it.i) (s.coord_y + s.len) it.old_k it.old_prev
            ++ draw_calls (s.coord_x + it.i) (s.coord_y + s.len) it.new_k it.new_prev ∧
        (erase_calls (s.coord_x + it.i) (s.coord_y + s.len) it.old_k it.old_prev).length = 1 ∧
        (erase_calls (s.coord_x + it.i) (s.coord_y + s.len) it.old_k it.old_prev).countP
            (DisplayCall.is_run Color.ILI9341_BLACK)
          = (if exceeds it.old_k it.old_prev then 1 else 0) ∧
        (draw_calls (s.coord_x + it.i) (s.coord_y + s.len) it.new_k it.new_prev).length
          = (if exceeds it.new_k it.new_prev then 2 else 1) ∧
        (draw_calls (s.coord_x + it.i) (s.coord_y + s.len) it.new_k it.new_prev).countP
            (DisplayCall.is_run Color.ILI9341_WHITE)
          = (if exceeds it.new_k it.new_prev then 1 else 0) ∧
        (draw_calls (s.coord_x + it.i) (s.coord_y + s.len) it.new_k it.new_prev).getLast?
          = some (.drawPixel (s.coord_x + it.i) (s.coord_y + s.len - it.new_k) .ILI9341_WHITE)) ∧
      calls.countP (DisplayCall.is_run Color.ILI9341_BLACK)
        = its.countP (fun it => exceeds it.old_k it.old_prev) ∧
      calls.countP (DisplayCall.is_run Color.ILI9341_WHITE)
        = its.countP (fun it => exceeds it.new_k it.new_prev) := by
  obtain ⟨-, its, hits, hcalls⟩ := display_signal_result s t calls h
  refine ⟨its, hits, hcalls, ?_, ?_, ?_⟩
  · intro it hit
    obtain ⟨r1, r2, r3, r4⟩ := display_signal_loop_samples s _ _ _ _ _ its hits it hit
    have e := erase_calls_shape (s.coord_x + it.i) (s.coord_y + s.len) it.old_k it.old_prev
    have d := draw_calls_shape (s.coord_x + it.i) (s.coord_y + s.len) it.new_k it.new_prev
    exact ⟨r1, r2, r3, r4, rfl, e.1, e.2.2.1, d.1, d.2.2.1, d.2.2.2.2⟩
  · rw [hcalls]; exact countP_runs_black s its
  · rw [hcalls]; exact countP_runs_white s its

theorem display_signal_calls_per_column_witness :
    ∃ t calls, sample_state.display_signal = some (t, calls) ∧
      ∃ its, sample_state.display_iterations = some its ∧
        calls = its.flatMap sample_state.calls_of ∧
        calls.countP (DisplayCall.is_run Color.ILI9341_BLACK)
          = its.countP (fun it => exceeds it.old_k it.old_prev) ∧
        calls.countP (DisplayCall.is_run Color.ILI9341_WHITE)
          = its.countP (fun it => exceeds it.new_k it.new_prev) :=
  ⟨{ sample_state with display_fifo := [0, 0, 100, 0], disp_start := 2, disp_end := 0 },
    [.drawPixel 0 1023 .ILI9341_BLACK,
      .drawFastVLine 0 923 100 .ILI9341_WHITE, .drawPixel 0 923 .ILI9341_WHITE,
      .drawPixel 1 1023 .ILI9341_BLACK, .drawPixel 1 1023 .ILI9341_WHITE],
    by decide,
    (display_signal_calls_per_column sample_state
      { sample_state with display_fifo := [0, 0, 100, 0], disp_start := 2, disp_end := 0 }
      [.drawPixel 0 1023 .ILI9341_BLACK,
        .drawFastVLine 0 923 100 .ILI9341_WHITE, .drawPixel 0 923 .ILI9341_WHITE,
        .drawPixel 1 1023 .ILI9341_BLACK, .drawPixel 1 1023 .ILI9341_WHITE]
      (by decide)).imp (fun _ hx => ⟨hx.1, hx.2.1, hx.2.2.2.1, hx.2.2.2.2⟩)⟩

/-- C13 (counterexample): on the state reached by two readings from the initial state,
with no render before (previous occupancy 0, current occupancy 2), the loop of
`display_signal()` processes the columns 0 and 1, not the empty set
`{ i | i < min 0 2 }`. -/
theorem first_render_processes_columns :
    (ECGReadout.initial 0 0 4 1023 [0, 0, 0, 0] []).reads [0, 100] = some sample_state ∧
    sample_state.buffer_contents = 2 ∧
    sample_state.display_iterations.map (fun its => its.map (fun it => it.i)) = some [0, 1] ∧
    sample_state.display_iterations.map (fun its => its.map (fun it => it.i))
      ≠ some (List.range (min 0 2)) := by
  decide

/-- C13 (amended): on a state whose vectors have `width` elements and whose offsets
are not negative, the columns `display_signal()` processes (erases and draws) are
exactly `0 .. c - 1`, where `c` is the first `i` with `i = buffer_contents` (the
occupancy captured now) or `(i + new_start) % width = fifo_end`; every call on the
display is in one of these columns and each of them gets a call.  No occupancy of
an earlier render enters. -/
theorem display_signal_columns (s : ECGReadout) (h : s.in_bounds) :
    ∃ t calls its, s.display_signal = some (t, calls) ∧ s.display_iterations = some its ∧
      its.map (fun it => it.i) = List.range its.length ∧
      its.length ≤ s.buffer_contents.toNat ∧
      (∀ j, j < its.length → s.new_k (j : Nat) ≠ s.fifo_end) ∧
      (its.length = s.buffer_contents.toNat ∨ s.new_k (its.length : Nat) = s.fifo_end) ∧
      (∀ x, (∃ c ∈ calls, c.x = x) ↔ ∃ j, j < its.length ∧ x = s.coord_x + (j : Nat)) := by
  obtain ⟨t, calls, hsig⟩ := display_signal_defined s h
  obtain ⟨-, its, hits, hcalls⟩ := display_signal_result s t calls hsig
  obtain ⟨c1, c2, c3, c4⟩ := display_signal_loop_columns s _ _ _ _ _ its hits
  have hcols : its.map (fun it => it.i) = List.range its.length := by
    rw [c1, List.range_eq_range']
  refine ⟨t, calls, its, hsig, hits, hcols, c2, ?_, ?_, ?_⟩
  · intro j hj
    have := (c3 j hj).1
    simpa [ECGReadout.new_k, ECGReadout.capture] using this
  · rcases c4 with c4 | c4
    · exact Or.inl c4
    · by_cases hlt : its.length < s.buffer_contents.toNat
      · right
        have hsz : ((0 + its.length : Nat) : Int) < s.capture.2.2.1 := by
          simp only [ECGReadout.capture]; omega
        have : ¬ (Int.tmod (((0 + its.length : Nat) : Int) + s.capture.1) s.width ≠ s.fifo_end) :=
          fun hne => c4 ⟨hne, hsz⟩
        simpa [ECGReadout.new_k, ECGReadout.capture] using this
      · left; simp only [ECGReadout.capture] at c2; omega
  · intro x
    constructor
    · rintro ⟨c, hc, rfl⟩
      rw [hcalls] at hc
      obtain ⟨it, hit, hcit⟩ := List.mem_flatMap.mp hc
      have hi : it.i ∈ its.map (fun it => it.i) := List.mem_map.mpr ⟨it, hit, rfl⟩
      rw [hcols] at hi
      exact ⟨it.i, List.mem_range.mp hi, (calls_of_x s it).1 c hcit⟩
    · rintro ⟨j, hj, rfl⟩
      have hi : j ∈ its.map (fun it => it.i) := by rw [hcols]; exact List.mem_range.mpr hj
      obtain ⟨it, hit, rfl⟩ := List.mem_map.mp hi
      obtain ⟨c, hc, hx⟩ := (calls_of_x s it).2
      exact ⟨c, by rw [hcalls]; exact List.mem_flatMap.mpr ⟨it, hit, hc⟩, hx⟩

theorem display_signal_columns_witness :
    sample_state.in_bounds ∧
    ∃ t calls its, sample_state.display_signal = some (t, calls) ∧
      sample_state.display_iterations = some its ∧
      its.map (fun it => it.i) = List.range its.length ∧
      its.length ≤ sample_state.buffer_contents.toNat ∧
      (∀ j, j < its.length → sample_state.new_k (j : Nat) ≠ sample_state.fifo_end) ∧
      (its.length = sample_state.buffer_contents.toNat ∨
        sample_state.new_k (its.length : Nat) = sample_state.fifo_end) ∧
      (∀ x, (∃ c ∈ calls, c.x = x) ↔
        ∃ j, j < its.length ∧ x = sample_state.coord_x + (j : Nat)) :=
  ⟨by decide, display_signal_columns sample_state (by decide)⟩

/-- For adjacent samples `a` (the sample of the column) and `b` with `b - a > 40` the
draw pass paints the pixel at height `a`, and the erase pass for the same two
samples, a run from `y0 - b` of length `b - a`, stops one pixel short of it. -/
theorem erase_misses_pixel (x y0 a b : Int) (h : b - a > 40) :
    (x, y0 - a) ∈ (draw_calls x y0 a b).flatMap DisplayCall.pixels ∧
    (x, y0 - a) ∉ (erase_calls x y0 a b).flatMap DisplayCall.pixels := by
  constructor
  · have d := (draw_calls_shape x y0 a b).2.2.2.2
    exact List.mem_flatMap.mpr ⟨_, List.mem_of_getLast?_eq_some d, by simp [DisplayCall.pixels]⟩
  · have h1 : ¬ a - b > 40 := by omega
    simp only [erase_calls, h1, h, if_true, if_false, List.flatMap_cons, List.flatMap_nil,
      List.append_nil, DisplayCall.pixels, List.mem_map, List.mem_range, not_exists, not_and]
    intro j hj hp
    have := (Prod.mk.injEq _ _ _ _ ▸ hp).2
    simp at this
    omega

/-- C19 (the erase pass leaves a pixel): from the initial state (width 4, frame
height 1023) the readings 50 and 0 give a snapshot whose column 0 has the adjacent samples
0 and 50.  The first `display_signal()` paints in column 0 the white run
`y = 973 .. 1022` and the white pixel `y = 1023`; the next `display_signal()`, with
that snapshot as the previous one, blanks in column 0 only the run `973 .. 1022`:
the pixel `(0, 1023)` painted by the draw pass is not blanked by the erase pass. -/
theorem erase_pass_leaves_pixel :
    ∃ s t t2 calls calls2,
      (ECGReadout.initial 0 0 4 1023 [0, 0, 0, 0] []).reads [50, 0] = some s ∧
      s.display_signal = some (t, calls) ∧ t.display_signal = some (t2, calls2) ∧
      ((0 : Int), (1023 : Int)) ∈ painted .ILI9341_WHITE 0 calls ∧
      ((0 : Int), (1023 : Int)) ∉ painted .ILI9341_BLACK 0 calls2 :=
  ⟨{ ECGReadout.initial 0 0 4 1023 [0, 0, 0, 0] [] with
      buffer_contents := 2, fifo := [0, 0, 0, 50], fifo_next := 1, fifo_end := 0 },
    { ECGReadout.initial 0 0 4 1023 [0, 0, 0, 0] [] with
      buffer_contents := 2, fifo := [0, 0, 0, 50], fifo_next := 1, fifo_end := 0,
      display_fifo := [0, 0, 0, 50], disp_start := 2, disp_end := 0 },
    { ECGReadout.initial 0 0 4 1023 [0, 0, 0, 0] [] with
      buffer_contents := 2, fifo := [0, 0, 0, 50], fifo_next := 1, fifo_end := 0,
      display_fifo := [0, 0, 0, 50], disp_start := 2, disp_end := 0 },
    [.drawPixel 0 1023 .ILI9341_BLACK,
      .drawFastVLine 0 973 50 .ILI9341_WHITE, .drawPixel 0 1023 .ILI9341_WHITE,
      .drawPixel 1 1023 .ILI9341_BLACK,
      .drawFastVLine 1 973 50 .ILI9341_WHITE, .drawPixel 1 973 .ILI9341_WHITE],
    [.drawFastVLine 0 973 50 .ILI9341_BLACK,
      .drawFastVLine 0 973 50 .ILI9341_WHITE, .drawPixel 0 1023 .ILI9341_WHITE,
      .drawFastVLine 1 973 50 .ILI9341_BLACK,
      .drawFastVLine 1 973 50 .ILI9341_WHITE, .drawPixel 1 973 .ILI9341_WHITE],
    by decide, by decide, by decide, by decide, by decide⟩

/-! ## Scaling and column order -/

/-- C16: for a reading `0 ≤ raw ≤ 1023`, a frame height `len ≥ 0` and a cursor inside
the vector, `read()` is defined and stores at the cursor `raw * len / 1023` truncated
to an integer; the stored sample lies in `[0, len]`, does not decrease when `raw`
grows, is 0 for `raw = 0` and `len` for `raw = 1023`; the vector keeps its length
and every slot other than the cursor keeps its value. -/
theorem read_scaled_sample (s : ECGReadout) (raw : Int)
    (h0 : 0 ≤ raw) (h1 : raw ≤ 1023) (hlen : 0 ≤ s.len)
    (hc0 : 0 ≤ s.fifo_next) (hc1 : s.fifo_next < (s.fifo.length : Int)) :
    ∃ u, s.read raw = some u ∧
      vec_get u.fifo s.fifo_next = some (Int.tdiv (raw * s.len) 1023) ∧
      Int.tdiv (raw * s.len) 1023 = double_to_int ((raw : ℚ) * (s.len : ℚ) / 1023) ∧
      0 ≤ Int.tdiv (raw * s.len) 1023 ∧ Int.tdiv (raw * s.len) 1023 ≤ s.len ∧
      (∀ raw2, raw ≤ raw2 → raw2 ≤ 1023 →
        adjusted_num s.len raw ≤ adjusted_num s.len raw2) ∧
      adjusted_num s.len 0 = 0 ∧ adjusted_num s.len 1023 = s.len ∧
      u.fifo.length = s.fifo.length ∧
      ∀ j : Int, j ≠ s.fifo_next → vec_get u.fifo j = vec_get s.fifo j := by
  have hv0 : 0 ≤ Int.tdiv (raw * s.len) 1023 :=
    Int.tdiv_nonneg (Int.mul_nonneg h0 hlen) (by decide)
  have hv1 : Int.tdiv (raw * s.len) 1023 ≤ s.len := by
    rw [Int.tdiv_eq_ediv (Int.mul_nonneg h0 hlen) (by decide)]
    have : raw * s.len ≤ s.len * 1023 := by nlinarith
    exact Int.ediv_le_of_le_mul (by decide) this
  have hmono : ∀ raw2, raw ≤ raw2 → raw2 ≤ 1023 →
      adjusted_num s.len raw ≤ adjusted_num s.len raw2 := by
    intro raw2 hr _
    unfold adjusted_num
    rw [Int.tdiv_eq_ediv (Int.mul_nonneg h0 hlen) (by decide),
      Int.tdiv_eq_ediv (Int.mul_nonneg (by omega) hlen) (by decide)]
    exact Int.ediv_le_ediv (by decide) (Int.mul_le_mul_of_nonneg_right hr hlen)
  have hz : adjusted_num s.len 0 = 0 := by simp [adjusted_num]
  have htop : adjusted_num s.len 1023 = s.len := by
    unfold adjusted_num
    rw [Int.tdiv_eq_ediv (Int.mul_nonneg (by decide) hlen) (by decide), Int.mul_comm]
    exact Int.mul_ediv_cancel s.len (by decide)
  have hset : vec_set s.fifo s.fifo_next (adjusted_num s.len raw)
      = some (s.fifo.set s.fifo_next.toNat (adjusted_num s.len raw)) := by
    simp [vec_set, hc0, hc1]
  have hlt : s.fifo_next.toNat < s.fifo.length := by omega
  refine ⟨{ s with
      buffer_contents := bump_contents s.width s.buffer_contents
      fifo := s.fifo.set s.fifo_next.toNat (adjusted_num s.len raw)
      fifo_end := step_back s.width s.fifo_end
      fifo_next := step_back s.width s.fifo_next },
    ?_, ?_, ?_, hv0, hv1, hmono, hz, htop, ?_, ?_⟩
  · simp only [ECGReadout.read, hset]
  · simp [vec_get, hc0, hlt, adjusted_num]
  · exact adjusted_num_eq_double s.len raw
  · simp
  · intro j hj
    unfold vec_get
    by_cases hj0 : 0 ≤ j
    · have hne : s.fifo_next.toNat ≠ j.toNat := by omega
      simp [hj0, List.getElem?_set, hne]
    · simp [hj0]

theorem read_scaled_sample_witness :
    (0 : Int) ≤ 512 ∧ (512 : Int) ≤ 1023 ∧ 0 ≤ sample_state.len ∧
    0 ≤ sample_state.fifo_next ∧ sample_state.fifo_next < (sample_state.fifo.length : Int) ∧
    ∃ u, sample_state.read 512 = some u ∧
      vec_get u.fifo sample_state.fifo_next = some (Int.tdiv (512 * sample_state.len) 1023) ∧
      Int.tdiv (512 * sample_state.len) 1023
        = double_to_int (((512 : Int) : ℚ) * (sample_state.len : ℚ) / 1023) ∧
      0 ≤ Int.tdiv (512 * sample_state.len) 1023 ∧
      Int.tdiv (512 * sample_state.len) 1023 ≤ sample_state.len ∧
      (∀ raw2, 512 ≤ raw2 → raw2 ≤ 1023 →
        adjusted_num sample_state.len 512 ≤ adjusted_num sample_state.len raw2) ∧
      adjusted_num sample_state.len 0 = 0 ∧
      adjusted_num sample_state.len 1023 = sample_state.len ∧
      u.fifo.length = sample_state.fifo.length ∧
      ∀ j : Int, j ≠ sample_state.fifo_next → vec_get u.fifo j = vec_get sample_state.fifo j :=
  ⟨by decide, by decide, by decide, by decide, by decide,
    read_scaled_sample sample_state 512 (by decide) (by decide) (by decide) (by decide)
      (by decide)⟩

/-- C20: from every state whose `fifo` has `width` slots, whose write cursor is
`fifo_next = width - 1` and whose occupancy is 0 (the initial state), `1 ≤ N ≤
width - 1` readings pushed by `read()` all store in bounds, and the slot
`(i + new_start) % width`, with `new_start = (fifo_next + 1) % width`, that
`display_signal` maps to column `i < N` holds the sample stored by the `(N - i)`-th
push: column 0 is the most recent sample, the columns run newest to oldest, and
read in column order they are the stored samples reversed, each once. -/
theorem columns_newest_to_oldest (s : ECGReadout) (raws : List Int)
    (hf : (s.fifo.length : Int) = s.width) (hc : s.fifo_next = s.width - 1)
    (h0 : s.buffer_contents = 0)
    (h1 : 1 ≤ raws.length) (h2 : (raws.length : Int) ≤ s.width - 1) :
    ∃ u, s.reads raws = some u ∧
      u.new_start = Int.tmod (u.fifo_next + 1) s.width ∧
      (∀ i (hi : i < raws.length),
        vec_get u.fifo (Int.tmod ((i : Int) + u.new_start) s.width)
          = some (adjusted_num s.len (raws[raws.length - 1 - i]))) ∧
      (List.range raws.length).map
          (fun (i : Nat) => vec_get u.fifo (Int.tmod ((i : Int) + u.new_start) s.width))
        = ((raws.map (adjusted_num s.len)).reverse).map some := by
  obtain ⟨n, hn⟩ := Int.eq_ofNat_of_zero_le (by omega : 0 ≤ s.width)
  obtain ⟨u, hu, hw, -, -, hbs⟩ := initial_reads s n hn (by omega) (by omega) (by omega)
    raws (by omega)
  obtain ⟨hb, hs⟩ := hbs h0
  have hbn : u.buffer_contents.toNat = raws.length := by rw [hb]; omega
  have hsnap : (List.range raws.length).map
      (fun (i : Nat) => vec_get u.fifo (Int.tmod ((i : Int) + u.new_start) s.width))
        = ((raws.map (adjusted_num s.len)).reverse).map some := by
    have := hs
    unfold ECGReadout.snapshot at this
    rw [hbn, List.take_of_length_le (by simp; omega)] at this
    rw [← this]
    apply List.map_congr_left
    intro i _
    simp [ECGReadout.new_k, hw, hn]
  refine ⟨u, hu, by simp [ECGReadout.new_start, hw, hn], ?_, hsnap⟩
  intro i hi
  have h := congrArg (fun l => l[i]?) hsnap
  simp only [List.getElem?_map, List.getElem?_range hi, Option.map_some'] at h
  have hi2 : i < (raws.map (adjusted_num s.len)).length := by simpa using hi
  rw [List.getElem?_reverse hi2, List.getElem?_map, List.length_map,
    List.getElem?_eq_getElem (by omega : raws.length - 1 - i < raws.length)] at h
  simpa using h

theorem columns_newest_to_oldest_witness :
    (((ECGReadout.initial 0 0 4 1023 [] []).fifo.length : Nat) : Int)
      = (ECGReadout.initial 0 0 4 1023 [] []).width ∧
    (ECGReadout.initial 0 0 4 1023 [] []).fifo_next
      = (ECGReadout.initial 0 0 4 1023 [] []).width - 1 ∧
    (ECGReadout.initial 0 0 4 1023 [] []).buffer_contents = 0 ∧
    1 ≤ ([100, 200, 300] : List Int).length ∧
    ((([100, 200, 300] : List Int).length : Nat) : Int)
      ≤ (ECGReadout.initial 0 0 4 1023 [] []).width - 1 ∧
    ∃ u, (ECGReadout.initial 0 0 4 1023 [] []).reads [100, 200, 300] = some u ∧
      u.new_start = Int.tmod (u.fifo_next + 1) (ECGReadout.initial 0 0 4 1023 [] []).width ∧
      (∀ i (_ : i < ([100, 200, 300] : List Int).length),
        vec_get u.fifo
            (Int.tmod ((i : Int) + u.new_start) (ECGReadout.initial 0 0 4 1023 [] []).width)
          = some (adjusted_num (ECGReadout.initial 0 0 4 1023 [] []).len
              (([100, 200, 300] : List Int)[([100, 200, 300] : List Int).length - 1 - i]))) ∧
      (List.range ([100, 200, 300] : List Int).length).map
          (fun (i : Nat) => vec_get u.fifo
            (Int.tmod ((i : Int) + u.new_start) (ECGReadout.initial 0 0 4 1023 [] []).width))
        = ((([100, 200, 300] : List Int).map
            (adjusted_num (ECGReadout.initial 0 0 4 1023 [] []).len)).reverse).map some :=
  ⟨by decide, by decide, by decide, by decide, by decide,
    columns_newest_to_oldest (ECGReadout.initial 0 0 4 1023 [] []) [100, 200, 300]
      (by decide) (by decide) (by decide) (by decide) (by decide)⟩

/-! ## The display driver -/

/-- For `uint16_t` arguments with `w ≥ 1` and `h ≥ 1`, on the screen (`x < 320`,
`y < 240`) the window passed to `setAddressWindow` is inside the screen. -/
theorem fillRectangle_window (x y w h : Int) (hx : 0 ≤ x) (hx2 : x < 320) (hy : 0 ≤ y)
    (hy2 : y < 240) (hw : 1 ≤ w) (hw2 : w < 65536) (hh : 1 ≤ h) (hh2 : h < 65536) :
    ∃ x1 y1, fillRectangle x y w h = (0, some (x, y, x1, y1)) ∧
      x ≤ x1 ∧ x1 < 320 ∧ y ≤ y1 ∧ y1 < 240 := by
  have hg : ¬ (x ≥ 320 ∨ y ≥ 240) := by omega
  unfold fillRectangle to_uint16
  rw [if_neg hg]
  refine ⟨_, _, rfl, ?_⟩
  by_cases h1 : x + w - 1 ≥ 320 <;> by_cases h2 : y + h - 1 ≥ 240 <;>
    simp only [h1, h2, if_true, if_false] <;> omega

/-- The returned code is 1, and `setAddressWindow` is not called, exactly when
`x ≥ 320` or `y ≥ 240`. -/
theorem fillRectangle_rejects (x y w h : Int) :
    (fillRectangle x y w h = (1, none) ↔ (x ≥ 320 ∨ y ≥ 240)) ∧
    ((fillRectangle x y w h).1 = 1 ↔ (x ≥ 320 ∨ y ≥ 240)) := by
  unfold fillRectangle
  by_cases hg : x ≥ 320 ∨ y ≥ 240
  · simp [hg]
  · simp [hg]

/-- C17 (the source addresses columns outside the screen for a zero width or
height): `fillRectangle(0, 0, 0, 0, color)` passes the guard, `x + w - 1` is `-1`
in `int`, which is not `≥ 320`, and `setAddressWindow` receives `x1 = y1 = 65535`;
`fillRectangle(10, 10, 0, 5, color)` passes the window `x0 = 10`, `x1 = 9`. -/
theorem fillRectangle_zero_width :
    fillRectangle 0 0 0 0 = (0, some (0, 0, 65535, 65535)) ∧
    ¬ ((65535 : Int) < 320) ∧
    fillRectangle 10 10 0 5 = (0, some (10, 10, 9, 14)) ∧
    ¬ ((10 : Int) ≤ 9) := by
  decide

/-- The word placed in the FIFO keeps the low 8 bits of `data`, and its bit 8 is the
complement of bit 8 of `data`: it is set exactly when bit 8 of `data` is clear. -/
theorem write_data_word_bits (data : Int) :
    write_data_word data % 256 = data % 256 ∧
    (dc_bit (write_data_word data) = true ↔ dc_bit data = false) := by
  unfold write_data_word to_uint16 dc_bit
  refine ⟨by omega, ?_⟩
  simp only [decide_eq_true_eq, decide_eq_false_iff_not]
  omega

/-- C18 (the source frames a colour byte as a command): `write_data(0x100)` places the
word `0x200` in the FIFO, whose bit 8 is clear; and `setColor(0xFFFF)`, the colour
`main` fills the screen with, calls `write_data(0xFF)` and `write_data(0xFFFF)`,
which place `0x1FF` and `0x0FF`: the second word has bit 8 clear. -/
theorem write_data_clears_dc_bit :
    write_data true 0x100 = (0, some 0x200) ∧ dc_bit 0x200 = false ∧
    setColor_args 0xFFFF = [0xFF, 0xFFFF] ∧
    setColor 0xFFFF = [0x1FF, 0x0FF] ∧
    (setColor 0xFFFF).map dc_bit = [true, false] := by
  decide
